import Mathlib

/-!
# Gocheck column profiler: type inference and summary statistics

A shallow embedding of `internal/profiler/profiler.go` and of `profileColumn`
from `internal/profiler/csv.go`.

Modelling conventions.

* A Go `string` is a Lean `String` (so only valid UTF-8 contents are represented);
  `len(v)` is the UTF-8 byte size.  Go `int` is taken to be 64 bits wide, so a
  value may be longer than `math.MaxInt32` bytes.
* A `[]string` is a `List String`; a `for ... range` loop is a left fold (or a
  structural recursion when the loop has a `break`) over an explicit loop state.
* Go `int`/`int64` counters only ever count elements of the input slice, so they
  are natural numbers; signed parameters (`maxSamples`, `totalRows`) are integers.
* `float64` values are modelled at two levels.  `IEEE.Float64` has NaN, the two
  infinities and the finite values, with the comparison and arithmetic of IEEE 754
  on them; `IEEE.CalculateNumericStats` is `CalculateNumericStats` over these
  values.  The exact model (`GoLib`, `CalculateNumericStats`) has finite values
  only, as exact rationals; `ieee_exact_agree` shows that it is the IEEE model on
  libraries that return no NaN and no infinity.  Finite values are exact rationals
  at both levels: rounding and the sign of zero are not represented.
* The only place where a float decides control flow is the 80% threshold of
  `InferType`; for counts below `2^49` the rounded product
  `float64(validCount) * 0.8` compares with an integer count exactly like the
  rational `validCount * 4/5`, so the exact comparison is what the code computes.
* A `map[string]bool` in which only `true` is ever stored is the list of its keys
  in insertion order.
* A nilable result (`*float64`, `*int`) is an `Option`.
* The standard-library functions called by the code (`strconv.ParseFloat`,
  `time.Parse`, `math.Sqrt`) are fields of `GoLib`; every theorem holds for all
  libraries, and the facts about a library that a statement needs are explicit
  hypotheses.
-/

namespace Gocheck

/-- The standard-library functions used by the profiler.
`parseFloat v` is `some f` when `strconv.ParseFloat(v, 64)` returns `f` with a nil
error; `timeParse layout v` is `true` when `time.Parse(layout, v)` returns a nil
error; `sqrt` is `math.Sqrt`.  A library of this type returns finite values only;
`IEEE.Lib` is the library that also returns NaN and the infinities. -/
structure GoLib where
  parseFloat : String → Option ℚ
  timeParse : String → String → Bool
  sqrt : ℚ → ℚ

/-- The four counters of the classification loop of `InferType`. -/
structure TypeCounts where
  numericCount : Nat
  dateCount : Nat
  boolCount : Nat
  validCount : Nat
  deriving DecidableEq, Repr

/-- One iteration of the `for _, v := range values` loop of `InferType`. -/
def inferStep (lib : GoLib) (c : TypeCounts) (v : String) : TypeCounts :=
  if v = "" then c
  else
    let c := { c with validCount := c.validCount + 1 }
    if (lib.parseFloat v).isSome then
      { c with numericCount := c.numericCount + 1 }
    else if v = "true" ∨ v = "false" ∨ v = "True" ∨ v = "False" ∨
        v = "TRUE" ∨ v = "FALSE" ∨ v = "1" ∨ v = "0" then
      { c with boolCount := c.boolCount + 1 }
    else if lib.timeParse "2006-01-02" v then
      { c with dateCount := c.dateCount + 1 }
    else if lib.timeParse "2006-01-02 15:04:05" v then
      { c with dateCount := c.dateCount + 1 }
    else if lib.timeParse "01/02/2006" v then
      { c with dateCount := c.dateCount + 1 }
    else c

/-- The counters after the classification loop of `InferType`. -/
def inferCounts (lib : GoLib) (values : List String) : TypeCounts :=
  values.foldl (inferStep lib) ⟨0, 0, 0, 0⟩

/-- `InferType` of `profiler.go`. -/
def InferType (lib : GoLib) (values : List String) : String :=
  if values.length = 0 then "unknown"
  else
    let c := inferCounts lib values
    if c.validCount = 0 then "string"
    else
      let threshold : ℚ := (c.validCount : ℚ) * 0.8
      if (c.numericCount : ℚ) ≥ threshold then "numeric"
      else if (c.dateCount : ℚ) ≥ threshold then "date"
      else if (c.boolCount : ℚ) ≥ threshold then "boolean"
      else "string"

/-! ## Numeric statistics -/

/-- The five results of `CalculateNumericStats`; `none` is a nil pointer. -/
structure NumericStats where
  min : Option ℚ
  max : Option ℚ
  mean : Option ℚ
  median : Option ℚ
  stddev : Option ℚ
  deriving DecidableEq

/-- The first loop of `CalculateNumericStats`: the parsed non-empty values, in
input order. -/
def parseNums (lib : GoLib) (values : List String) : List ℚ :=
  values.foldl (fun nums v =>
    if v = "" then nums
    else match lib.parseFloat v with
      | some f => nums ++ [f]
      | none => nums) []

/-- The loop state `(minVal, maxVal, sum)` of the second loop. -/
structure MinMaxSum where
  minVal : ℚ
  maxVal : ℚ
  sum : ℚ

/-- One iteration of the min/max/sum loop. -/
def minMaxSumStep (s : MinMaxSum) (n : ℚ) : MinMaxSum :=
  let minVal := if n < s.minVal then n else s.minVal
  let maxVal := if n > s.maxVal then n else s.maxVal
  ⟨minVal, maxVal, s.sum + n⟩

/-- The call `sort.Float64s`: the ascending rearrangement of the slice. -/
def sortFloat64s (nums : List ℚ) : List ℚ :=
  nums.insertionSort (fun a b => a ≤ b)

/-- The median branch of `CalculateNumericStats`, on the sorted copy. -/
def medianOfSorted (sorted : List ℚ) : ℚ :=
  if sorted.length % 2 = 0 then
    (sorted.getD (sorted.length / 2 - 1) 0 + sorted.getD (sorted.length / 2) 0) / 2
  else
    sorted.getD (sorted.length / 2) 0

/-- `CalculateNumericStats` of `profiler.go`. -/
def CalculateNumericStats (lib : GoLib) (values : List String) : NumericStats :=
  match parseNums lib values with
  | [] => ⟨none, none, none, none, none⟩
  | n0 :: rest =>
    let nums := n0 :: rest
    let s := nums.foldl minMaxSumStep ⟨n0, n0, 0⟩
    let meanVal := s.sum / (nums.length : ℚ)
    let medianVal := medianOfSorted (sortFloat64s nums)
    let variance := nums.foldl (fun variance n => variance + (n - meanVal) ^ 2) 0
    let variance := variance / (nums.length : ℚ)
    let stddevVal := lib.sqrt variance
    ⟨some s.minVal, some s.maxVal, some meanVal, some medianVal, some stddevVal⟩

/-! ## String statistics -/

/-- The three results of `CalculateStringStats`; `none` is a nil pointer. -/
structure StringStats where
  minLen : Option Nat
  maxLen : Option Nat
  avgLen : Option ℚ
  deriving DecidableEq

/-- The loop state of `CalculateStringStats`. -/
structure LenState where
  validValues : Nat
  totalLen : Nat
  minLength : Nat
  maxLength : Nat
  deriving DecidableEq

/-- The constant `math.MaxInt32`. -/
def MaxInt32 : Nat := 2147483647

/-- One iteration of the loop of `CalculateStringStats`. -/
def lenStep (s : LenState) (v : String) : LenState :=
  if v = "" then s
  else
    let length := v.utf8ByteSize
    ⟨s.validValues + 1, s.totalLen + length,
      if length < s.minLength then length else s.minLength,
      if length > s.maxLength then length else s.maxLength⟩

/-- `CalculateStringStats` of `profiler.go`. -/
def CalculateStringStats (values : List String) : StringStats :=
  let s := values.foldl lenStep ⟨0, 0, MaxInt32, 0⟩
  if s.validValues = 0 then ⟨none, none, none⟩
  else ⟨some s.minLength, some s.maxLength, some ((s.totalLen : ℚ) / (s.validValues : ℚ))⟩

/-! ## Samples and cardinality -/

/-- The assignment `m[k] = true` on a map that only stores `true`. -/
def setTrue (m : List String) (k : String) : List String :=
  if k ∈ m then m else m ++ [k]

/-- The loop of `GetSampleValues` from a given state `(samples, seen)`; the early
exit is the `break` taken right after an append. -/
def sampleLoop (maxSamples : Int) : List String → List String → List String → List String
  | [], samples, _ => samples
  | v :: rest, samples, seen =>
    if v = "" ∨ v ∈ seen then sampleLoop maxSamples rest samples seen
    else
      let samples := samples ++ [v]
      let seen := setTrue seen v
      if (samples.length : Int) ≥ maxSamples then samples
      else sampleLoop maxSamples rest samples seen

/-- `GetSampleValues` of `profiler.go`. -/
def GetSampleValues (values : List String) (maxSamples : Int) : List String :=
  sampleLoop maxSamples values [] []

/-- The map built by the loop of `CountUnique`. -/
def uniqueKeys (values : List String) : List String :=
  values.foldl (fun unique v => if v ≠ "" then setTrue unique v else unique) []

/-- `CountUnique` of `profiler.go`. -/
def CountUnique (values : List String) : Nat :=
  (uniqueKeys values).length

/-! ## Column profiles -/

/-- `ColumnProfile` of `profiler.go`. -/
structure ColumnProfile where
  Name : String
  InferredType : String
  MissingCount : Nat
  MissingPct : ℚ
  UniqueCount : Nat
  Min : Option ℚ := none
  Max : Option ℚ := none
  Mean : Option ℚ := none
  Median : Option ℚ := none
  StdDev : Option ℚ := none
  MinLength : Option Nat := none
  MaxLength : Option Nat := none
  AvgLength : Option ℚ := none
  SampleValues : List String

/-- The counting loop at the start of `profileColumn`. -/
def countMissing (values : List String) : Nat :=
  values.foldl (fun missingCount v => if v = "" then missingCount + 1 else missingCount) 0

/-- `profileColumn` of `csv.go`.  The quotient `missingCount / totalRows` is the
rational one; for `totalRows = 0` the Go value is NaN or infinite and is not
represented. -/
def profileColumn (lib : GoLib) (name : String) (values : List String) (totalRows : Int) :
    ColumnProfile :=
  let missingCount := countMissing values
  let inferredType := InferType lib values
  let missingPct : ℚ := (missingCount : ℚ) / (totalRows : ℚ) * 100
  let uniqueCount := CountUnique values
  let profile : ColumnProfile :=
    { Name := name, InferredType := inferredType, MissingCount := missingCount,
      MissingPct := missingPct, UniqueCount := uniqueCount,
      SampleValues := GetSampleValues values 5 }
  if inferredType = "numeric" then
    let r := CalculateNumericStats lib values
    { profile with Min := r.min, Max := r.max, Mean := r.mean, Median := r.median,
                   StdDev := r.stddev }
  else if inferredType = "string" then
    let r := CalculateStringStats values
    { profile with MinLength := r.minLen, MaxLength := r.maxLen, AvgLength := r.avgLen }
  else profile

/-! ## A concrete library for evaluating examples -/

/-- The value of a non-empty list of decimal digits, most significant first. -/
def decDigits (cs : List Char) : Option Nat :=
  if cs = [] then none
  else cs.foldl (fun acc c =>
    acc.bind (fun n => if '0' ≤ c ∧ c ≤ '9' then some (10 * n + (c.toNat - 48)) else none)) (some 0)

/-- A small concrete library used to evaluate the definitions on examples:
unsigned decimal integers parse as numbers, nothing parses as a date, and `sqrt`
is the quotient of the integer square roots of numerator and denominator. -/
def sampleLib : GoLib where
  parseFloat := fun v => (decDigits v.data).map (fun n => (n : ℚ))
  timeParse := fun _ _ => false
  sqrt := fun q => (Nat.sqrt q.num.toNat : ℚ) / (Nat.sqrt q.den : ℚ)

/-! ## Numeric statistics over IEEE values

`CalculateNumericStats` once more, over float64 values that may be NaN or
infinite, as `strconv.ParseFloat` returns them for `"NaN"`, `"Inf"`, `"-Inf"`.
Finite values stay exact rationals: rounding and the sign of zero are not
represented. -/

namespace IEEE

/-- A float64 value: NaN, an infinity, or a finite value. -/
inductive Float64 where
  | nan : Float64
  | negInf : Float64
  | fin (q : ℚ) : Float64
  | posInf : Float64
  deriving DecidableEq

/-- The test `math.IsNaN`. -/
def Float64.isNaN : Float64 → Bool
  | .nan => true
  | _ => false

/-- The comparison `x < y`: false as soon as an operand is NaN. -/
def Float64.lt : Float64 → Float64 → Bool
  | .nan, _ => false
  | _, .nan => false
  | .negInf, .negInf => false
  | .negInf, _ => true
  | .fin _, .negInf => false
  | .fin a, .fin b => decide (a < b)
  | .fin _, .posInf => true
  | .posInf, _ => false

/-- The sum `x + y`: NaN for a NaN operand and for infinities of opposite sign. -/
def Float64.add : Float64 → Float64 → Float64
  | .nan, _ => .nan
  | _, .nan => .nan
  | .posInf, .negInf => .nan
  | .negInf, .posInf => .nan
  | .posInf, _ => .posInf
  | _, .posInf => .posInf
  | .negInf, _ => .negInf
  | _, .negInf => .negInf
  | .fin a, .fin b => .fin (a + b)

/-- The difference `x - y`: NaN for a NaN operand and for equal infinities. -/
def Float64.sub : Float64 → Float64 → Float64
  | .nan, _ => .nan
  | _, .nan => .nan
  | .posInf, .posInf => .nan
  | .negInf, .negInf => .nan
  | .posInf, _ => .posInf
  | _, .negInf => .posInf
  | .negInf, _ => .negInf
  | _, .posInf => .negInf
  | .fin a, .fin b => .fin (a - b)

/-- The quotient `x / y`; a zero divisor is taken as positive zero. -/
def Float64.div : Float64 → Float64 → Float64
  | .nan, _ => .nan
  | _, .nan => .nan
  | .posInf, .fin b => if b < 0 then .negInf else .posInf
  | .negInf, .fin b => if b < 0 then .posInf else .negInf
  | .posInf, _ => .nan
  | .negInf, _ => .nan
  | .fin _, .posInf => .fin 0
  | .fin _, .negInf => .fin 0
  | .fin a, .fin b =>
    if b = 0 then (if a = 0 then .nan else if a < 0 then .negInf else .posInf)
    else .fin (a / b)

/-- The call `math.Pow(x, 2)`. -/
def Float64.sq : Float64 → Float64
  | .nan => .nan
  | .negInf => .posInf
  | .posInf => .posInf
  | .fin a => .fin (a ^ 2)

/-- The library functions used by `CalculateNumericStats`: `parseFloat v` is
`some f` when `strconv.ParseFloat(v, 64)` returns `f`, possibly NaN or infinite,
with a nil error; `sqrt` is `math.Sqrt` on finite non-negative values. -/
structure Lib where
  parseFloat : String → Option Float64
  sqrt : ℚ → ℚ

/-- The call `math.Sqrt(x)`: NaN for NaN and for negative values, `+Inf` for `+Inf`. -/
def Lib.sqrt64 (lib : Lib) : Float64 → Float64
  | .nan => .nan
  | .negInf => .nan
  | .posInf => .posInf
  | .fin a => if a < 0 then .nan else .fin (lib.sqrt a)

/-- The five results of `CalculateNumericStats`; `none` is a nil pointer. -/
structure NumericStats where
  min : Option Float64
  max : Option Float64
  mean : Option Float64
  median : Option Float64
  stddev : Option Float64
  deriving DecidableEq

/-- The first loop of `CalculateNumericStats`: the parsed non-empty values, in
input order. -/
def parseNums (lib : Lib) (values : List String) : List Float64 :=
  values.foldl (fun nums v =>
    if v = "" then nums
    else match lib.parseFloat v with
      | some f => nums ++ [f]
      | none => nums) []

/-- The loop state `(minVal, maxVal, sum)` of the second loop. -/
structure MinMaxSum where
  minVal : Float64
  maxVal : Float64
  sum : Float64

/-- One iteration of the min/max/sum loop. -/
def minMaxSumStep (s : MinMaxSum) (n : Float64) : MinMaxSum :=
  let minVal := if n.lt s.minVal then n else s.minVal
  let maxVal := if s.maxVal.lt n then n else s.maxVal
  ⟨minVal, maxVal, s.sum.add n⟩

/-- The order used by `sort.Float64s`: `x < y`, with NaN before every other value. -/
def sortLess (x y : Float64) : Bool :=
  x.lt y || (x.isNaN && !y.isNaN)

/-- The call `sort.Float64s`: the rearrangement that is ascending for `sortLess`. -/
def sortFloat64s (nums : List Float64) : List Float64 :=
  nums.insertionSort (fun a b => sortLess b a = false)

/-- The median branch of `CalculateNumericStats`, on the sorted copy. -/
def medianOfSorted (sorted : List Float64) : Float64 :=
  if sorted.length % 2 = 0 then
    ((sorted.getD (sorted.length / 2 - 1) (.fin 0)).add
      (sorted.getD (sorted.length / 2) (.fin 0))).div (.fin 2)
  else
    sorted.getD (sorted.length / 2) (.fin 0)

/-- `CalculateNumericStats` of `profiler.go`, over IEEE values. -/
def CalculateNumericStats (lib : Lib) (values : List String) : NumericStats :=
  match parseNums lib values with
  | [] => ⟨none, none, none, none, none⟩
  | n0 :: rest =>
    let nums := n0 :: rest
    let s := nums.foldl minMaxSumStep ⟨n0, n0, .fin 0⟩
    let meanVal := s.sum.div (.fin (nums.length : ℚ))
    let medianVal := medianOfSorted (sortFloat64s nums)
    let variance := nums.foldl
      (fun (variance n : Float64) => variance.add ((n.sub meanVal).sq)) (.fin 0)
    let variance := variance.div (.fin (nums.length : ℚ))
    let stddevVal := lib.sqrt64 variance
    ⟨some s.minVal, some s.maxVal, some meanVal, some medianVal, some stddevVal⟩

/-- A small concrete library: `NaN`, `Inf`, `+Inf` and `-Inf` parse as the special
values, unsigned decimal integers as finite numbers. -/
def sampleLib : Lib where
  parseFloat := fun v =>
    if v = "NaN" then some .nan
    else if v = "Inf" ∨ v = "+Inf" then some .posInf
    else if v = "-Inf" then some .negInf
    else (decDigits v.data).map (fun n => Float64.fin (n : ℚ))
  sqrt := fun q => (Nat.sqrt q.num.toNat : ℚ) / (Nat.sqrt q.den : ℚ)

/-- The library over IEEE values given by a library that returns finite values
only. -/
def ofExact (lib : GoLib) : Lib where
  parseFloat := fun v => (lib.parseFloat v).map Float64.fin
  sqrt := lib.sqrt

/-- The results of the exact model, read as IEEE values. -/
def ofExactStats (r : Gocheck.NumericStats) : NumericStats :=
  ⟨r.min.map Float64.fin, r.max.map Float64.fin, r.mean.map Float64.fin,
    r.median.map Float64.fin, r.stddev.map Float64.fin⟩

/-- The parsed values of the specification: every non-empty value that parses as
a number, in input order; empty and unparsable values are discarded. -/
def parsedValues (lib : Lib) (values : List String) : List Float64 :=
  values.filterMap (fun v => if v = "" then none else lib.parseFloat v)

/-- The order `x ≤ y` of float64: `x < y`, or equal values that are not NaN. -/
def Float64.le (x y : Float64) : Prop :=
  x.lt y = true ∨ (x = y ∧ x ≠ .nan)

/-- The sum of a list of values, starting from 0. -/
def sumList : List Float64 → Float64
  | [] => .fin 0
  | x :: xs => x.add (sumList xs)

end IEEE

/-! ## Specification-side vocabulary for type inference -/

/-- A value is numeric when it parses as a 64-bit float. -/
def isNumeric (lib : GoLib) (v : String) : Bool := (lib.parseFloat v).isSome

/-- The fixed set of literals that count as truth values. -/
def isBoolLiteral (v : String) : Bool :=
  decide (v ∈ ["true", "false", "True", "False", "TRUE", "FALSE", "1", "0"])

/-- A value is a date when one of the three layouts accepts it. -/
def isDate (lib : GoLib) (v : String) : Bool :=
  lib.timeParse "2006-01-02" v || lib.timeParse "2006-01-02 15:04:05" v ||
    lib.timeParse "01/02/2006" v

/-- Number of non-empty values. -/
def specValidCount (values : List String) : Nat :=
  values.countP (fun v => decide (v ≠ ""))

/-- Number of non-empty values classified numeric (first category tried). -/
def specNumericCount (lib : GoLib) (values : List String) : Nat :=
  values.countP (fun v => decide (v ≠ "") && isNumeric lib v)

/-- Number of non-empty values classified as truth values: not numeric, and in
the literal set (second category tried). -/
def specBoolCount (lib : GoLib) (values : List String) : Nat :=
  values.countP (fun v => decide (v ≠ "") && !isNumeric lib v && isBoolLiteral v)

/-- Number of non-empty values classified as dates: neither numeric nor a truth
literal, and accepted by a date layout (third category tried). -/
def specDateCount (lib : GoLib) (values : List String) : Nat :=
  values.countP (fun v =>
    decide (v ≠ "") && !isNumeric lib v && !isBoolLiteral v && isDate lib v)

/-- The decision rule of the specification: the first category, in the order
numeric, date, boolean, that reaches 80% of the non-empty values. -/
def specDecision (validCount numericCount dateCount boolCount : Nat) : String :=
  if (numericCount : ℚ) ≥ 0.8 * (validCount : ℚ) then "numeric"
  else if (dateCount : ℚ) ≥ 0.8 * (validCount : ℚ) then "date"
  else if (boolCount : ℚ) ≥ 0.8 * (validCount : ℚ) then "boolean"
  else "string"

/-- The parsed values of the specification: every non-empty value that parses as
a number, in input order; empty and unparsable values are discarded. -/
def parsedValues (lib : GoLib) (values : List String) : List ℚ :=
  values.filterMap (fun v => if v = "" then none else lib.parseFloat v)

/-- All five numeric statistics of a profile are present. -/
def numericStatsPresent (p : ColumnProfile) : Prop :=
  p.Min.isSome ∧ p.Max.isSome ∧ p.Mean.isSome ∧ p.Median.isSome ∧ p.StdDev.isSome

/-- All five numeric statistics of a profile are absent. -/
def numericStatsAbsent (p : ColumnProfile) : Prop :=
  p.Min = none ∧ p.Max = none ∧ p.Mean = none ∧ p.Median = none ∧ p.StdDev = none

/-- All three string statistics of a profile are present. -/
def stringStatsPresent (p : ColumnProfile) : Prop :=
  p.MinLength.isSome ∧ p.MaxLength.isSome ∧ p.AvgLength.isSome

/-- All three string statistics of a profile are absent. -/
def stringStatsAbsent (p : ColumnProfile) : Prop :=
  p.MinLength = none ∧ p.MaxLength = none ∧ p.AvgLength = none

/-- The lengths of the non-empty values, in input order. -/
def validLengths (values : List String) : List Nat :=
  (values.filter (fun v => decide (v ≠ ""))).map String.utf8ByteSize

/-- A value of `n` bytes: the letter `a` repeated `n` times. -/
def longValue (n : Nat) : String := String.mk (List.replicate n 'a')

/-- Keep only the first occurrence of each value, in order. -/
def keepFirst : List String → List String
  | [] => []
  | v :: vs => v :: (keepFirst vs).filter (fun w => decide (w ≠ v))

/-- The list of the specification of sampling: the input with empty strings
dropped and only the first occurrence of each value kept. -/
def firstSeen (values : List String) : List String :=
  keepFirst (values.filter (fun v => decide (v ≠ "")))

/-- Number of distinct non-empty values. -/
def distinctCount (values : List String) : Nat :=
  ((values.filter (fun v => decide (v ≠ ""))).toFinset).card

/-- The threshold comparisons made in a given order: the label of the first
count that reaches the threshold, "string" when none does. -/
def firstReaching (threshold : ℚ) : List (ℚ × String) → String
  | [] => "string"
  | (count, label) :: rest =>
    if count ≥ threshold then label else firstReaching threshold rest

/-! ## Type inference: the loop computes the specification's counts -/

theorem inferStep_counts (lib : GoLib) (c : TypeCounts) (v : String) :
    inferStep lib c v =
      ⟨c.numericCount + specNumericCount lib [v], c.dateCount + specDateCount lib [v],
        c.boolCount + specBoolCount lib [v], c.validCount + specValidCount [v]⟩ := by
  unfold inferStep
  by_cases hv : v = ""
  · simp [hv, specNumericCount, specDateCount, specBoolCount, specValidCount]
  · cases hp : lib.parseFloat v with
    | some f =>
      simp [hv, hp, specNumericCount, specDateCount, specBoolCount, specValidCount,
        isNumeric]
    | none =>
      by_cases hb : v = "true" ∨ v = "false" ∨ v = "True" ∨ v = "False" ∨
          v = "TRUE" ∨ v = "FALSE" ∨ v = "1" ∨ v = "0"
      · have hb2 : isBoolLiteral v = true := by simpa [isBoolLiteral] using hb
        simp [hv, hp, hb, hb2, specNumericCount, specDateCount, specBoolCount,
          specValidCount, isNumeric]
      · have hb2 : isBoolLiteral v = false := by simpa [isBoolLiteral] using hb
        cases h1 : lib.timeParse "2006-01-02" v <;>
        cases h2 : lib.timeParse "2006-01-02 15:04:05" v <;>
        cases h3 : lib.timeParse "01/02/2006" v <;>
        simp [hv, hp, hb, hb2, h1, h2, h3, specNumericCount, specDateCount, specBoolCount,
          specValidCount, isNumeric, isDate]

theorem foldl_inferStep_counts (lib : GoLib) (values : List String) (c : TypeCounts) :
    values.foldl (inferStep lib) c =
      ⟨c.numericCount + specNumericCount lib values, c.dateCount + specDateCount lib values,
        c.boolCount + specBoolCount lib values, c.validCount + specValidCount values⟩ := by
  induction values generalizing c with
  | nil => simp [specNumericCount, specDateCount, specBoolCount, specValidCount]
  | cons v vs ih =>
    rw [List.foldl_cons, ih, inferStep_counts]
    simp only [specNumericCount, specDateCount, specBoolCount, specValidCount,
      List.countP_cons, List.countP_nil, Nat.zero_add, Nat.add_assoc]
    simp only [Nat.add_comm]

theorem inferCounts_eq (lib : GoLib) (values : List String) :
    inferCounts lib values =
      ⟨specNumericCount lib values, specDateCount lib values, specBoolCount lib values,
        specValidCount values⟩ := by
  simp [inferCounts, foldl_inferStep_counts]

theorem specValidCount_pos_iff (values : List String) :
    0 < specValidCount values ↔ ∃ v ∈ values, v ≠ "" := by
  simp [specValidCount, List.countP_pos_iff]

theorem InferType_eq_specDecision (lib : GoLib) (values : List String)
    (h : ∃ v ∈ values, v ≠ "") :
    InferType lib values =
      specDecision (specValidCount values) (specNumericCount lib values)
        (specDateCount lib values) (specBoolCount lib values) := by
  have hne : values.length ≠ 0 := by
    obtain ⟨v, hv, _⟩ := h
    intro h0
    rw [List.length_eq_zero] at h0
    simp [h0] at hv
  have hpos : specValidCount values ≠ 0 :=
    Nat.pos_iff_ne_zero.mp ((specValidCount_pos_iff values).mpr h)
  unfold InferType specDecision
  rw [if_neg hne]
  simp only [inferCounts_eq, if_neg hpos]
  simp only [mul_comm]

/-- C1: when at least one value is non-empty, `InferType` returns "numeric" if the
number of values classified numeric is at least 80% of the number of non-empty
values, otherwise "date" if the date count reaches that threshold, otherwise
"boolean" if the truth-literal count does, otherwise "string" (first match wins
in the order numeric, truth literal, date when classifying a value).  So when no
category reaches 80% the result is "string", as for `["1","2","hello","world"]`
whenever `hello` and `world` do not parse as numbers. -/
theorem InferType_threshold_rule (lib : GoLib) (values : List String)
    (h : ∃ v ∈ values, v ≠ "") :
    (InferType lib values =
      if (specNumericCount lib values : ℚ) ≥ 0.8 * (specValidCount values : ℚ) then "numeric"
      else if (specDateCount lib values : ℚ) ≥ 0.8 * (specValidCount values : ℚ) then "date"
      else if (specBoolCount lib values : ℚ) ≥ 0.8 * (specValidCount values : ℚ) then "boolean"
      else "string") ∧
    ((specNumericCount lib values : ℚ) < 0.8 * (specValidCount values : ℚ) →
      (specDateCount lib values : ℚ) < 0.8 * (specValidCount values : ℚ) →
      (specBoolCount lib values : ℚ) < 0.8 * (specValidCount values : ℚ) →
      InferType lib values = "string") ∧
    (lib.parseFloat "hello" = none → lib.parseFloat "world" = none →
      InferType lib ["1", "2", "hello", "world"] = "string") := by
  have key := InferType_eq_specDecision lib values h
  unfold specDecision at key
  refine ⟨key, ?_, ?_⟩
  · intro hn hd hb
    rw [key, if_neg (not_le.mpr hn), if_neg (not_le.mpr hd), if_neg (not_le.mpr hb)]
  · intro hh hw
    have hh2 : isNumeric lib "hello" = false := by simp [isNumeric, hh]
    have hw2 : isNumeric lib "world" = false := by simp [isNumeric, hw]
    rw [InferType_eq_specDecision lib _ ⟨"hello", by simp, by decide⟩]
    cases a : isNumeric lib "1" <;> cases b : isNumeric lib "2" <;>
    cases c : isDate lib "2" <;> cases d : isDate lib "hello" <;>
    cases e : isDate lib "world" <;>
    simp [specDecision, specNumericCount, specDateCount, specBoolCount, specValidCount,
      isBoolLiteral, hh2, hw2, a, b, c, d, e] <;> norm_num

theorem InferType_threshold_rule_witness :
    (∃ v ∈ ["1", "2", "hello", "world"], v ≠ "") ∧
      InferType sampleLib ["1", "2", "hello", "world"] = "string" :=
  ⟨⟨"1", by simp, by decide⟩,
    (InferType_threshold_rule sampleLib ["1", "2", "hello", "world"]
      ⟨"1", by simp, by decide⟩).2.2 (by rfl) (by rfl)⟩

theorem specNumericCount_eq_valid_of_bits (lib : GoLib) (values : List String)
    (h1 : lib.parseFloat "1" ≠ none) (h0 : lib.parseFloat "0" ≠ none)
    (hall : ∀ v ∈ values, v ≠ "" → v = "1" ∨ v = "0") :
    specNumericCount lib values = specValidCount values ∧ specBoolCount lib values = 0 := by
  have hnum : ∀ v ∈ values, v ≠ "" → isNumeric lib v = true := by
    intro v hv hne
    rcases hall v hv hne with rfl | rfl
    · simpa [isNumeric, Option.isSome_iff_ne_none] using h1
    · simpa [isNumeric, Option.isSome_iff_ne_none] using h0
  constructor
  · unfold specNumericCount specValidCount
    apply List.countP_congr
    intro v hv
    by_cases hne : v = ""
    · simp [hne]
    · simp [hne, hnum v hv hne]
  · unfold specBoolCount
    rw [List.countP_eq_zero]
    intro v hv
    by_cases hne : v = ""
    · simp [hne]
    · simp [hnum v hv hne]

/-- C2: provided the library parses "1" and "0" as numbers, a sequence with at
least one non-empty value whose non-empty values are all "1" or "0" has every
non-empty value counted as numeric and none as a truth literal, and `InferType`
returns "numeric", not "boolean". -/
theorem InferType_bits_numeric (lib : GoLib) (values : List String)
    (h1 : lib.parseFloat "1" ≠ none) (h0 : lib.parseFloat "0" ≠ none)
    (hne : ∃ v ∈ values, v ≠ "")
    (hall : ∀ v ∈ values, v ≠ "" → v = "1" ∨ v = "0") :
    InferType lib values = "numeric" ∧ InferType lib values ≠ "boolean" ∧
      (inferCounts lib values).numericCount = (inferCounts lib values).validCount ∧
      (inferCounts lib values).boolCount = 0 := by
  obtain ⟨hn, hb⟩ := specNumericCount_eq_valid_of_bits lib values h1 h0 hall
  have hpos : (0 : ℚ) < (specValidCount values : ℚ) := by
    exact_mod_cast (specValidCount_pos_iff values).mpr hne
  have hres : InferType lib values = "numeric" := by
    rw [InferType_eq_specDecision lib values hne, specDecision, hn, if_pos]
    linarith
  refine ⟨hres, ?_, ?_, ?_⟩
  · rw [hres]; decide
  · simp [inferCounts_eq, hn]
  · simp [inferCounts_eq, hb]

theorem InferType_bits_numeric_witness :
    (∃ v ∈ ["1", "", "0", "1"], v ≠ "") ∧ InferType sampleLib ["1", "", "0", "1"] = "numeric" :=
  ⟨⟨"1", by simp, by decide⟩,
    (InferType_bits_numeric sampleLib ["1", "", "0", "1"] (by decide) (by decide)
      ⟨"1", by simp, by decide⟩ (by decide)).1⟩

/-- C3: `InferType` returns "unknown" for the empty sequence and "string" for
every non-empty sequence all of whose values are the empty string. -/
theorem InferType_empty_cases (lib : GoLib) :
    InferType lib [] = "unknown" ∧
      ∀ values : List String, values ≠ [] → (∀ v ∈ values, v = "") →
        InferType lib values = "string" := by
  refine ⟨by simp [InferType], ?_⟩
  intro values hne hall
  have hlen : values.length ≠ 0 := by simpa [List.length_eq_zero] using hne
  have hvalid : specValidCount values = 0 := by
    unfold specValidCount
    rw [List.countP_eq_zero]
    intro v hv
    simp [hall v hv]
  unfold InferType
  rw [if_neg hlen]
  simp [inferCounts_eq, hvalid]

theorem InferType_empty_cases_witness :
    InferType sampleLib ["", "", ""] = "string" :=
  (InferType_empty_cases sampleLib).2 ["", "", ""] (by simp) (by simp)

/-! ## Presence of the type-specific statistics -/

theorem parseNums_foldl (lib : GoLib) (values : List String) (acc : List ℚ) :
    values.foldl (fun nums v =>
      if v = "" then nums
      else match lib.parseFloat v with
        | some f => nums ++ [f]
        | none => nums) acc = acc ++ parsedValues lib values := by
  induction values generalizing acc with
  | nil => simp [parsedValues]
  | cons v vs ih =>
    rw [List.foldl_cons, ih]
    by_cases hv : v = ""
    · simp [hv, parsedValues]
    · cases hp : lib.parseFloat v <;> simp [hv, hp, parsedValues]

theorem parseNums_eq (lib : GoLib) (values : List String) :
    parseNums lib values = parsedValues lib values := by
  simp [parseNums, parseNums_foldl]

theorem parsedValues_ne_nil_iff (lib : GoLib) (values : List String) :
    parsedValues lib values ≠ [] ↔ 0 < specNumericCount lib values := by
  induction values with
  | nil => simp [parsedValues, specNumericCount]
  | cons v vs ih =>
    by_cases hv : v = ""
    · simpa [hv, parsedValues, specNumericCount] using ih
    · cases hp : lib.parseFloat v with
      | none => simpa [hv, hp, parsedValues, specNumericCount, isNumeric] using ih
      | some f => simp [hv, hp, parsedValues, specNumericCount, isNumeric]

theorem InferType_numeric_counts (lib : GoLib) (values : List String)
    (h : InferType lib values = "numeric") : 0 < specNumericCount lib values := by
  unfold InferType at h
  simp only [inferCounts_eq] at h
  split_ifs at h with h1 h2 h3 h4 h5
  · exact absurd h (by decide)
  · exact absurd h (by decide)
  · have hpos : (0 : ℚ) < (specValidCount values : ℚ) := by
      exact_mod_cast Nat.pos_of_ne_zero h2
    have : (0 : ℚ) < (specNumericCount lib values : ℚ) := by
      have h3b : (specValidCount values : ℚ) * 0.8 ≤ (specNumericCount lib values : ℚ) := h3
      norm_num at h3b
      linarith
    exact_mod_cast this
  · exact absurd h (by decide)
  · exact absurd h (by decide)
  · exact absurd h (by decide)

theorem lenStep_validValues (values : List String) (s : LenState) :
    (values.foldl lenStep s).validValues = s.validValues + specValidCount values := by
  induction values generalizing s with
  | nil => simp [specValidCount]
  | cons v vs ih =>
    rw [List.foldl_cons, ih]
    by_cases hv : v = ""
    · simp [lenStep, hv, specValidCount]
    · simp [lenStep, hv, specValidCount, Nat.add_assoc, Nat.add_comm]

/-- C4: in the profile built by `profileColumn`, the numeric statistics (Min,
Max, Mean, Median, StdDev) are all present exactly when the inferred type is
"numeric", the string statistics (MinLength, MaxLength, AvgLength) are all present
exactly when the inferred type is "string" and some value is non-empty, and in
every other case the fields of the group are all absent. -/
theorem profileColumn_stats_presence (lib : GoLib) (name : String) (values : List String)
    (totalRows : Int) :
    (profileColumn lib name values totalRows).InferredType = InferType lib values ∧
    (numericStatsPresent (profileColumn lib name values totalRows) ↔
      (profileColumn lib name values totalRows).InferredType = "numeric") ∧
    (numericStatsPresent (profileColumn lib name values totalRows) ∨
      numericStatsAbsent (profileColumn lib name values totalRows)) ∧
    (stringStatsPresent (profileColumn lib name values totalRows) ↔
      ((profileColumn lib name values totalRows).InferredType = "string" ∧
        ∃ v ∈ values, v ≠ "")) ∧
    (stringStatsPresent (profileColumn lib name values totalRows) ∨
      stringStatsAbsent (profileColumn lib name values totalRows)) := by
  by_cases hnum : InferType lib values = "numeric"
  · have hne : parsedValues lib values ≠ [] :=
      (parsedValues_ne_nil_iff lib values).mpr (InferType_numeric_counts lib values hnum)
    obtain ⟨n0, rest, hcons⟩ := List.exists_cons_of_ne_nil hne
    have hp : parseNums lib values = n0 :: rest := by rw [parseNums_eq, hcons]
    simp [profileColumn, hnum, CalculateNumericStats, hp, numericStatsPresent,
      numericStatsAbsent, stringStatsPresent, stringStatsAbsent]
  · by_cases hstr : InferType lib values = "string"
    · have hns : ¬ ("string" = "numeric") := by decide
      by_cases hval : ∃ v ∈ values, v ≠ ""
      · have hv : specValidCount values ≠ 0 :=
          Nat.pos_iff_ne_zero.mp ((specValidCount_pos_iff values).mpr hval)
        have hvv : (values.foldl lenStep ⟨0, 0, MaxInt32, 0⟩).validValues ≠ 0 := by
          rw [lenStep_validValues]; simpa using hv
        have hval2 : ∃ v, v ∈ values ∧ ¬ v = "" := hval
        simp [profileColumn, hstr, hns, CalculateStringStats, hvv, numericStatsPresent,
          numericStatsAbsent, stringStatsPresent, stringStatsAbsent, hval2]
      · have hv : specValidCount values = 0 := by
          by_contra h0
          exact hval ((specValidCount_pos_iff values).mp (Nat.pos_of_ne_zero h0))
        have hvv : (values.foldl lenStep ⟨0, 0, MaxInt32, 0⟩).validValues = 0 := by
          rw [lenStep_validValues]; simpa using hv
        have hval2 : ¬ ∃ v, v ∈ values ∧ ¬ v = "" := hval
        simp [profileColumn, hstr, hns, CalculateStringStats, hvv, numericStatsPresent,
          numericStatsAbsent, stringStatsPresent, stringStatsAbsent, hval2]
    · simp [profileColumn, hnum, hstr, numericStatsPresent,
        numericStatsAbsent, stringStatsPresent, stringStatsAbsent]

/-! ## Numeric statistics -/

theorem minMaxSum_foldl_sum (nums : List ℚ) (s : MinMaxSum) :
    (nums.foldl minMaxSumStep s).sum = s.sum + nums.sum := by
  induction nums generalizing s with
  | nil => simp
  | cons n ns ih =>
    rw [List.foldl_cons, ih]
    simp [minMaxSumStep, add_assoc]

theorem minMaxSum_foldl_min (nums : List ℚ) (s : MinMaxSum) :
    (nums.foldl minMaxSumStep s).minVal ≤ s.minVal ∧
      (∀ x ∈ nums, (nums.foldl minMaxSumStep s).minVal ≤ x) ∧
      ((nums.foldl minMaxSumStep s).minVal = s.minVal ∨
        (nums.foldl minMaxSumStep s).minVal ∈ nums) := by
  induction nums generalizing s with
  | nil => simp
  | cons n ns ih =>
    rw [List.foldl_cons]
    obtain ⟨h1, h2, h3⟩ := ih (minMaxSumStep s n)
    have hstep : (minMaxSumStep s n).minVal = if n < s.minVal then n else s.minVal := rfl
    have hle1 : (minMaxSumStep s n).minVal ≤ s.minVal := by
      rw [hstep]; split_ifs with hlt
      · exact le_of_lt hlt
      · exact le_refl _
    have hle2 : (minMaxSumStep s n).minVal ≤ n := by
      rw [hstep]; split_ifs with hlt
      · exact le_refl _
      · exact not_lt.mp hlt
    refine ⟨le_trans h1 hle1, ?_, ?_⟩
    · intro x hx
      rcases List.mem_cons.mp hx with rfl | hx
      · exact le_trans h1 hle2
      · exact h2 x hx
    · rcases h3 with h3 | h3
      · rw [h3, hstep]
        split_ifs with hlt
        · right; exact List.mem_cons_self _ _
        · left; rfl
      · right; exact List.mem_cons_of_mem _ h3

theorem minMaxSum_foldl_max (nums : List ℚ) (s : MinMaxSum) :
    s.maxVal ≤ (nums.foldl minMaxSumStep s).maxVal ∧
      (∀ x ∈ nums, x ≤ (nums.foldl minMaxSumStep s).maxVal) ∧
      ((nums.foldl minMaxSumStep s).maxVal = s.maxVal ∨
        (nums.foldl minMaxSumStep s).maxVal ∈ nums) := by
  induction nums generalizing s with
  | nil => simp
  | cons n ns ih =>
    rw [List.foldl_cons]
    obtain ⟨h1, h2, h3⟩ := ih (minMaxSumStep s n)
    have hstep : (minMaxSumStep s n).maxVal = if n > s.maxVal then n else s.maxVal := rfl
    have hle1 : s.maxVal ≤ (minMaxSumStep s n).maxVal := by
      rw [hstep]; split_ifs with hlt
      · exact le_of_lt hlt
      · exact le_refl _
    have hle2 : n ≤ (minMaxSumStep s n).maxVal := by
      rw [hstep]; split_ifs with hlt
      · exact le_refl _
      · exact not_lt.mp hlt
    refine ⟨le_trans hle1 h1, ?_, ?_⟩
    · intro x hx
      rcases List.mem_cons.mp hx with rfl | hx
      · exact le_trans hle2 h1
      · exact h2 x hx
    · rcases h3 with h3 | h3
      · rw [h3, hstep]
        split_ifs with hlt
        · right; exact List.mem_cons_self _ _
        · left; rfl
      · right; exact List.mem_cons_of_mem _ h3

theorem parsedValues_ne_nil_of_exists (lib : GoLib) (values : List String)
    (h : ∃ v ∈ values, v ≠ "" ∧ lib.parseFloat v ≠ none) : parsedValues lib values ≠ [] := by
  obtain ⟨v, hv, hne, hp⟩ := h
  obtain ⟨f, hf⟩ := Option.ne_none_iff_exists'.mp hp
  intro hnil
  have hmem : f ∈ parsedValues lib values := by
    unfold parsedValues
    rw [List.mem_filterMap]
    exact ⟨v, hv, by simp [hne, hf]⟩
  rw [hnil] at hmem
  exact absurd hmem (List.not_mem_nil f)

/-- Exact model, finite values only: when some non-empty value parses as a number,
`CalculateNumericStats` returns as min the least and as max the greatest of the
parsed values (empty and unparsable values discarded) and as mean their sum divided
by their count; for `["1","2","3","4","5"]`, parsed as 1, ..., 5, this gives min 1,
max 5, mean 3. -/
theorem CalculateNumericStats_exact_min_max_mean (lib : GoLib) (values : List String)
    (h : ∃ v ∈ values, v ≠ "" ∧ lib.parseFloat v ≠ none) :
    (∃ mn mx : ℚ,
      (CalculateNumericStats lib values).min = some mn ∧
      (CalculateNumericStats lib values).max = some mx ∧
      mn ∈ parsedValues lib values ∧ (∀ x ∈ parsedValues lib values, mn ≤ x) ∧
      mx ∈ parsedValues lib values ∧ (∀ x ∈ parsedValues lib values, x ≤ mx) ∧
      (CalculateNumericStats lib values).mean =
        some ((parsedValues lib values).sum / ((parsedValues lib values).length : ℚ))) ∧
    (lib.parseFloat "1" = some 1 → lib.parseFloat "2" = some 2 → lib.parseFloat "3" = some 3 →
      lib.parseFloat "4" = some 4 → lib.parseFloat "5" = some 5 →
      (CalculateNumericStats lib ["1", "2", "3", "4", "5"]).min = some 1 ∧
      (CalculateNumericStats lib ["1", "2", "3", "4", "5"]).max = some 5 ∧
      (CalculateNumericStats lib ["1", "2", "3", "4", "5"]).mean = some 3) := by
  constructor
  · have hne := parsedValues_ne_nil_of_exists lib values h
    obtain ⟨n0, rest, hcons⟩ := List.exists_cons_of_ne_nil hne
    have hp : parseNums lib values = n0 :: rest := by rw [parseNums_eq, hcons]
    obtain ⟨_, hmin2, hmin3⟩ := minMaxSum_foldl_min (n0 :: rest) ⟨n0, n0, 0⟩
    obtain ⟨_, hmax2, hmax3⟩ := minMaxSum_foldl_max (n0 :: rest) ⟨n0, n0, 0⟩
    have hsum := minMaxSum_foldl_sum (n0 :: rest) ⟨n0, n0, 0⟩
    refine ⟨((n0 :: rest).foldl minMaxSumStep ⟨n0, n0, 0⟩).minVal,
      ((n0 :: rest).foldl minMaxSumStep ⟨n0, n0, 0⟩).maxVal, ?_, ?_, ?_, ?_, ?_, ?_, ?_⟩
    · simp only [CalculateNumericStats, hp]
    · simp only [CalculateNumericStats, hp]
    · rw [hcons]
      rcases hmin3 with h3 | h3
      · rw [h3]; exact List.mem_cons_self _ _
      · exact h3
    · rw [hcons]; exact hmin2
    · rw [hcons]
      rcases hmax3 with h3 | h3
      · rw [h3]; exact List.mem_cons_self _ _
      · exact h3
    · rw [hcons]; exact hmax2
    · simp only [CalculateNumericStats, hp, hcons, hsum, zero_add]
  · intro h1 h2 h3 h4 h5
    simp [CalculateNumericStats, parseNums, h1, h2, h3, h4, h5, minMaxSumStep]
    norm_num

theorem CalculateNumericStats_exact_min_max_mean_witness :
    (∃ v ∈ ["7", "", "x", "3"], v ≠ "" ∧ sampleLib.parseFloat v ≠ none) ∧
      (∃ mn mx : ℚ,
        (CalculateNumericStats sampleLib ["7", "", "x", "3"]).min = some mn ∧
        (CalculateNumericStats sampleLib ["7", "", "x", "3"]).max = some mx ∧
        mn ∈ parsedValues sampleLib ["7", "", "x", "3"] ∧
        (∀ x ∈ parsedValues sampleLib ["7", "", "x", "3"], mn ≤ x) ∧
        mx ∈ parsedValues sampleLib ["7", "", "x", "3"] ∧
        (∀ x ∈ parsedValues sampleLib ["7", "", "x", "3"], x ≤ mx) ∧
        (CalculateNumericStats sampleLib ["7", "", "x", "3"]).mean =
          some ((parsedValues sampleLib ["7", "", "x", "3"]).sum /
            ((parsedValues sampleLib ["7", "", "x", "3"]).length : ℚ))) :=
  ⟨⟨"7", by simp, by decide, by decide⟩,
    (CalculateNumericStats_exact_min_max_mean sampleLib ["7", "", "x", "3"]
      ⟨"7", by simp, by decide, by decide⟩).1⟩

theorem getElem?_of_getD (l : List ℚ) (i : Nat) (h : i < l.length) :
    l[i]? = some (l.getD i 0) := by
  simp [List.getD_eq_getElem?_getD, List.getElem?_eq_getElem h]

theorem sortFloat64s_perm_congr (a b : List ℚ) (h : a.Perm b) :
    sortFloat64s a = sortFloat64s b := by
  unfold sortFloat64s
  apply List.eq_of_perm_of_sorted (r := fun x y : ℚ => x ≤ y)
  · exact ((List.perm_insertionSort _ a).trans h).trans (List.perm_insertionSort _ b).symm
  · exact List.sorted_insertionSort _ a
  · exact List.sorted_insertionSort _ b

theorem CalculateNumericStats_median_eq (lib : GoLib) (values : List String)
    (hne : parsedValues lib values ≠ []) :
    (CalculateNumericStats lib values).median =
      some (medianOfSorted (sortFloat64s (parsedValues lib values))) := by
  obtain ⟨n0, rest, hcons⟩ := List.exists_cons_of_ne_nil hne
  have hp : parseNums lib values = n0 :: rest := by rw [parseNums_eq, hcons]
  simp only [CalculateNumericStats, hp, hcons]

/-- C6: with `n ≥ 1` parsable values, the median returned by
`CalculateNumericStats` is read off the ascending rearrangement of the parsed
values: the element at index `n / 2` when `n` is odd, the average of the elements
at indices `n / 2 - 1` and `n / 2` when `n` is even; reordering the input values
does not change it. -/
theorem CalculateNumericStats_median (lib : GoLib) (values : List String)
    (h : ∃ v ∈ values, v ≠ "" ∧ lib.parseFloat v ≠ none) :
    (∃ sorted : List ℚ,
      sorted.Perm (parsedValues lib values) ∧ sorted.Sorted (fun a b => a ≤ b) ∧
      (sorted.length % 2 = 1 →
        ∃ m, sorted[sorted.length / 2]? = some m ∧
          (CalculateNumericStats lib values).median = some m) ∧
      (sorted.length % 2 = 0 →
        ∃ a b, sorted[sorted.length / 2 - 1]? = some a ∧ sorted[sorted.length / 2]? = some b ∧
          (CalculateNumericStats lib values).median = some ((a + b) / 2))) ∧
    (∀ values2 : List String, values2.Perm values →
      (CalculateNumericStats lib values2).median = (CalculateNumericStats lib values).median) := by
  have hne := parsedValues_ne_nil_of_exists lib values h
  have hmed := CalculateNumericStats_median_eq lib values hne
  constructor
  · refine ⟨sortFloat64s (parsedValues lib values), List.perm_insertionSort _ _,
      List.sorted_insertionSort _ _, ?_, ?_⟩
    · intro hodd
      have hpos : 0 < (sortFloat64s (parsedValues lib values)).length := by omega
      refine ⟨(sortFloat64s (parsedValues lib values)).getD
        ((sortFloat64s (parsedValues lib values)).length / 2) 0, ?_, ?_⟩
      · exact getElem?_of_getD _ _ (Nat.div_lt_self hpos (by decide))
      · rw [hmed, medianOfSorted, if_neg (by omega)]
    · intro heven
      have hlen : (sortFloat64s (parsedValues lib values)).length ≠ 0 := by
        unfold sortFloat64s
        rw [List.length_insertionSort]
        exact fun h0 => hne (List.length_eq_zero.mp h0)
      have hpos : 0 < (sortFloat64s (parsedValues lib values)).length :=
        Nat.pos_of_ne_zero hlen
      refine ⟨(sortFloat64s (parsedValues lib values)).getD
          ((sortFloat64s (parsedValues lib values)).length / 2 - 1) 0,
        (sortFloat64s (parsedValues lib values)).getD
          ((sortFloat64s (parsedValues lib values)).length / 2) 0, ?_, ?_, ?_⟩
      · exact getElem?_of_getD _ _ (by omega)
      · exact getElem?_of_getD _ _ (Nat.div_lt_self hpos (by decide))
      · rw [hmed, medianOfSorted, if_pos heven]
  · intro values2 hperm
    have hpp : (parsedValues lib values2).Perm (parsedValues lib values) :=
      List.Perm.filterMap _ hperm
    have hne2 : parsedValues lib values2 ≠ [] := by
      intro h0
      rw [h0] at hpp
      exact hne (List.Perm.nil_eq hpp).symm
    rw [hmed, CalculateNumericStats_median_eq lib values2 hne2,
      sortFloat64s_perm_congr _ _ hpp]

theorem CalculateNumericStats_median_witness :
    (∃ v ∈ ["5", "1", "", "4", "2"], v ≠ "" ∧ sampleLib.parseFloat v ≠ none) ∧
      (CalculateNumericStats sampleLib ["2", "", "4", "1", "5"]).median =
        (CalculateNumericStats sampleLib ["5", "1", "", "4", "2"]).median :=
  ⟨⟨"5", by simp, by decide, by decide⟩,
    (CalculateNumericStats_median sampleLib ["5", "1", "", "4", "2"]
      ⟨"5", by simp, by decide, by decide⟩).2 ["2", "", "4", "1", "5"] (by decide)⟩

/-- Exact model, finite values only: when exactly one value parses (all others
being empty or unparsable) and its parsed value is `x`, `CalculateNumericStats`
returns min = max = median = mean = `x` and standard deviation 0, the square root
of 0 being 0. -/
theorem CalculateNumericStats_exact_single (lib : GoLib) (values : List String) (x : ℚ)
    (hsqrt : lib.sqrt 0 = 0) (h : parsedValues lib values = [x]) :
    CalculateNumericStats lib values = ⟨some x, some x, some x, some x, some 0⟩ := by
  have hp : parseNums lib values = [x] := by rw [parseNums_eq, h]
  simp [CalculateNumericStats, hp, minMaxSumStep, sortFloat64s, medianOfSorted, hsqrt]

theorem CalculateNumericStats_exact_single_witness :
    sampleLib.sqrt 0 = 0 ∧ parsedValues sampleLib ["", "abc", "42", ""] = [42] ∧
      CalculateNumericStats sampleLib ["", "abc", "42", ""] =
        ⟨some 42, some 42, some 42, some 42, some 0⟩ :=
  ⟨by simp [sampleLib], by simp [parsedValues, sampleLib, decDigits],
    CalculateNumericStats_exact_single sampleLib ["", "abc", "42", ""] 42 (by simp [sampleLib])
      (by simp [parsedValues, sampleLib, decDigits])⟩

/-! ## String statistics -/

theorem lenStep_foldl_spec (values : List String) (s : LenState) :
    (values.foldl lenStep s).totalLen = s.totalLen + (validLengths values).sum ∧
    (values.foldl lenStep s).minLength ≤ s.minLength ∧
    (∀ n ∈ validLengths values, (values.foldl lenStep s).minLength ≤ n) ∧
    ((values.foldl lenStep s).minLength = s.minLength ∨
      (values.foldl lenStep s).minLength ∈ validLengths values) ∧
    s.maxLength ≤ (values.foldl lenStep s).maxLength ∧
    (∀ n ∈ validLengths values, n ≤ (values.foldl lenStep s).maxLength) ∧
    ((values.foldl lenStep s).maxLength = s.maxLength ∨
      (values.foldl lenStep s).maxLength ∈ validLengths values) := by
  induction values generalizing s with
  | nil => simp [validLengths]
  | cons v vs ih =>
    rw [List.foldl_cons]
    obtain ⟨h1, h2, h3, h4, h5, h6, h7⟩ := ih (lenStep s v)
    by_cases hv : v = ""
    · have hs : lenStep s v = s := by simp [lenStep, hv]
      have hl : validLengths (v :: vs) = validLengths vs := by simp [validLengths, hv]
      rw [hs] at h1 h2 h3 h4 h5 h6 h7
      rw [hs, hl]
      exact ⟨h1, h2, h3, h4, h5, h6, h7⟩
    · have hl : validLengths (v :: vs) = v.utf8ByteSize :: validLengths vs := by
        simp [validLengths, hv]
      have ht : (lenStep s v).totalLen = s.totalLen + v.utf8ByteSize := by simp [lenStep, hv]
      have hmin : (lenStep s v).minLength =
          if v.utf8ByteSize < s.minLength then v.utf8ByteSize else s.minLength := by
        simp [lenStep, hv]
      have hmax : (lenStep s v).maxLength =
          if v.utf8ByteSize > s.maxLength then v.utf8ByteSize else s.maxLength := by
        simp [lenStep, hv]
      rw [hl]
      refine ⟨?_, ?_, ?_, ?_, ?_, ?_, ?_⟩
      · rw [h1, ht, List.sum_cons, Nat.add_assoc]
      · rw [hmin] at h2; split_ifs at h2 <;> omega
      · intro n hn
        rcases List.mem_cons.mp hn with rfl | hn
        · rw [hmin] at h2; split_ifs at h2 <;> omega
        · exact h3 n hn
      · rcases h4 with h4 | h4
        · rw [h4, hmin]
          split_ifs
          · right; exact List.mem_cons_self _ _
          · left; rfl
        · right; exact List.mem_cons_of_mem _ h4
      · rw [hmax] at h5; split_ifs at h5 <;> omega
      · intro n hn
        rcases List.mem_cons.mp hn with rfl | hn
        · rw [hmax] at h5; split_ifs at h5 <;> omega
        · exact h6 n hn
      · rcases h7 with h7 | h7
        · rw [h7, hmax]
          split_ifs
          · right; exact List.mem_cons_self _ _
          · left; rfl
        · right; exact List.mem_cons_of_mem _ h7

theorem validLengths_length (values : List String) :
    (validLengths values).length = specValidCount values := by
  simp [validLengths, specValidCount, List.countP_eq_length_filter]

/-- What `CalculateStringStats` guarantees: with a non-empty value present, max
length and average length are those of the non-empty values, and min length is
their least length as soon as one of them is at most `MaxInt32` bytes long; with
no non-empty value all three results are absent. -/
theorem CalculateStringStats_bounded (values : List String) :
    ((∃ v ∈ values, v ≠ "") →
      ∃ mn mx : Nat,
        CalculateStringStats values =
          ⟨some mn, some mx,
            some (((validLengths values).sum : ℚ) / ((validLengths values).length : ℚ))⟩ ∧
        mx ∈ validLengths values ∧ (∀ n ∈ validLengths values, n ≤ mx) ∧
        ((∃ n ∈ validLengths values, n ≤ MaxInt32) →
          mn ∈ validLengths values ∧ ∀ n ∈ validLengths values, mn ≤ n)) ∧
    ((¬ ∃ v ∈ values, v ≠ "") → CalculateStringStats values = ⟨none, none, none⟩) := by
  obtain ⟨h1, h2, h3, h4, h5, h6, h7⟩ := lenStep_foldl_spec values ⟨0, 0, MaxInt32, 0⟩
  have hvv := lenStep_validValues values ⟨0, 0, MaxInt32, 0⟩
  simp only [Nat.zero_add] at hvv h1
  constructor
  · intro hex
    have hpos : 0 < specValidCount values := (specValidCount_pos_iff values).mpr hex
    have hvne : (values.foldl lenStep ⟨0, 0, MaxInt32, 0⟩).validValues ≠ 0 := by
      rw [hvv]; exact Nat.pos_iff_ne_zero.mp hpos
    have hlne : validLengths values ≠ [] := by
      intro h0
      have := validLengths_length values
      rw [h0] at this
      simp at this
      omega
    refine ⟨(values.foldl lenStep ⟨0, 0, MaxInt32, 0⟩).minLength,
      (values.foldl lenStep ⟨0, 0, MaxInt32, 0⟩).maxLength, ?_, ?_, h6, ?_⟩
    · unfold CalculateStringStats
      simp only [h1, hvv, validLengths_length]
      rw [if_neg (Nat.pos_iff_ne_zero.mp hpos)]
    · rcases h7 with h7 | h7
      · obtain ⟨n, hn⟩ := List.exists_mem_of_ne_nil _ hlne
        have hle := h6 n hn
        rw [h7] at hle
        have hn0 : n = 0 := Nat.le_zero.mp hle
        rw [h7, ← hn0]
        exact hn
      · exact h7
    · rintro ⟨n, hn, hnle⟩
      refine ⟨?_, h3⟩
      rcases h4 with h4 | h4
      · have hle := h3 n hn
        rw [h4] at hle
        have hn0 : n = MaxInt32 := Nat.le_antisymm hnle hle
        rw [h4, ← hn0]
        exact hn
      · exact h4
  · intro hno
    have hz : specValidCount values = 0 := by
      by_contra h0
      exact hno ((specValidCount_pos_iff values).mp (Nat.pos_of_ne_zero h0))
    unfold CalculateStringStats
    simp [hvv, hz]

theorem utf8Len_replicate (n : Nat) : String.utf8Len (List.replicate n 'a') = n := by
  induction n with
  | zero => rfl
  | succ k ih =>
    have hsize : Char.utf8Size 'a' = 1 := by decide
    rw [List.replicate_succ, String.utf8Len_cons, ih, hsize]

theorem longValue_size (n : Nat) : (longValue n).utf8ByteSize = n := by
  simp [longValue, utf8Len_replicate]

theorem CalculateStringStats_longValue (n : Nat) (h : MaxInt32 < n) :
    CalculateStringStats [longValue n] = ⟨some MaxInt32, some n, some (n : ℚ)⟩ := by
  have hne : longValue n ≠ "" := by
    intro h0
    have := longValue_size n
    rw [h0] at this
    have h00 : ("" : String).utf8ByteSize = 0 := rfl
    unfold MaxInt32 at h
    omega
  have hpos : 0 < n := by unfold MaxInt32 at h; omega
  simp [CalculateStringStats, lenStep, hne, longValue_size, Nat.not_lt.mpr (Nat.le_of_lt h),
    hpos]

/-- C8 (failing input): on a single value of 2147483648 bytes, one more than
`math.MaxInt32`, `CalculateStringStats` returns min length 2147483647, which is the
initial sentinel and not the length of any value, next to max length and average
length 2147483648. -/
theorem CalculateStringStats_sentinel_min :
    CalculateStringStats [longValue 2147483648] =
        ⟨some 2147483647, some 2147483648, some 2147483648⟩ ∧
      validLengths [longValue 2147483648] = [2147483648] := by
  have hbig : MaxInt32 < 2147483648 := by decide
  have hne : longValue 2147483648 ≠ "" := by
    intro h0
    have := longValue_size 2147483648
    rw [h0] at this
    have h00 : ("" : String).utf8ByteSize = 0 := rfl
    omega
  refine ⟨?_, ?_⟩
  · rw [CalculateStringStats_longValue 2147483648 hbig]
    simp [MaxInt32]
  · simp [validLengths, hne, longValue_size]

/-! ## Cardinality -/

theorem mem_setTrue (m : List String) (k x : String) :
    x ∈ setTrue m k ↔ x ∈ m ∨ x = k := by
  unfold setTrue
  split_ifs with hk
  · constructor
    · exact fun hx => Or.inl hx
    · rintro (hx | rfl)
      · exact hx
      · exact hk
  · simp

theorem nodup_setTrue (m : List String) (k : String) (h : m.Nodup) : (setTrue m k).Nodup := by
  unfold setTrue
  split_ifs with hk
  · exact h
  · rw [List.nodup_append]
    refine ⟨h, List.nodup_singleton k, ?_⟩
    intro a ha hb
    rw [List.mem_singleton] at hb
    subst hb
    exact hk ha

theorem uniqueKeys_foldl_spec (values : List String) (acc : List String) (h : acc.Nodup) :
    (values.foldl (fun unique v => if v ≠ "" then setTrue unique v else unique) acc).Nodup ∧
    ∀ x, x ∈ values.foldl (fun unique v => if v ≠ "" then setTrue unique v else unique) acc ↔
      x ∈ acc ∨ (x ∈ values ∧ x ≠ "") := by
  induction values generalizing acc with
  | nil => simp [h]
  | cons v vs ih =>
    rw [List.foldl_cons]
    by_cases hv : v = ""
    · obtain ⟨ih1, ih2⟩ := ih acc h
      simp only [hv, ne_eq, not_true_eq_false, if_false] at ih1 ih2 ⊢
      refine ⟨ih1, fun x => ?_⟩
      rw [ih2 x]
      constructor
      · rintro (hx | ⟨hx, hne⟩)
        · exact Or.inl hx
        · exact Or.inr ⟨List.mem_cons_of_mem _ hx, hne⟩
      · rintro (hx | ⟨hx, hne⟩)
        · exact Or.inl hx
        · rcases List.mem_cons.mp hx with rfl | hx
          · exact absurd rfl hne
          · exact Or.inr ⟨hx, hne⟩
    · obtain ⟨ih1, ih2⟩ := ih (setTrue acc v) (nodup_setTrue acc v h)
      simp only [ne_eq, hv, not_false_eq_true, if_true] at ih1 ih2 ⊢
      refine ⟨ih1, fun x => ?_⟩
      rw [ih2 x, mem_setTrue]
      constructor
      · rintro ((hx | rfl) | ⟨hx, hne⟩)
        · exact Or.inl hx
        · exact Or.inr ⟨List.mem_cons_self _ _, hv⟩
        · exact Or.inr ⟨List.mem_cons_of_mem _ hx, hne⟩
      · rintro (hx | ⟨hx, hne⟩)
        · exact Or.inl (Or.inl hx)
        · rcases List.mem_cons.mp hx with rfl | hx
          · exact Or.inl (Or.inr rfl)
          · exact Or.inr ⟨hx, hne⟩

theorem CountUnique_eq_card (values : List String) :
    CountUnique values = ((values.filter (fun v => decide (v ≠ ""))).toFinset).card := by
  obtain ⟨hnd, hmem⟩ := uniqueKeys_foldl_spec values [] List.nodup_nil
  have hset : (uniqueKeys values).toFinset =
      (values.filter (fun v => decide (v ≠ ""))).toFinset := by
    ext x
    simp only [List.mem_toFinset, List.mem_filter, decide_eq_true_eq]
    unfold uniqueKeys
    rw [hmem x]
    simp
  unfold CountUnique
  rw [← hset, List.toFinset_card_of_nodup]
  exact hnd

/-- C9: `CountUnique` returns the number of distinct non-empty strings occurring
in the sequence: adding an empty string or a value already present does not
change the count, and neither does reordering the values; on
`["a","b","a","c","b",""]` the count is 3. -/
theorem CountUnique_distinct_nonempty (values : List String) :
    CountUnique values = ((values.filter (fun v => decide (v ≠ ""))).toFinset).card ∧
    CountUnique ("" :: values) = CountUnique values ∧
    (∀ v ∈ values, CountUnique (v :: values) = CountUnique values) ∧
    (∀ values2 : List String, values2.Perm values → CountUnique values2 = CountUnique values) ∧
    CountUnique ["a", "b", "a", "c", "b", ""] = 3 := by
  refine ⟨CountUnique_eq_card values, ?_, ?_, ?_, by decide⟩
  · rw [CountUnique_eq_card, CountUnique_eq_card]
    simp
  · intro v hv
    rw [CountUnique_eq_card, CountUnique_eq_card]
    by_cases hne : v = ""
    · simp [hne]
    · have hmem : v ∈ (values.filter (fun v => decide (v ≠ ""))).toFinset := by
        simp [hv, hne]
      have hf : (v :: values).filter (fun v => decide (v ≠ "")) =
          v :: values.filter (fun v => decide (v ≠ "")) := by
        simp [List.filter_cons, hne]
      rw [hf, List.toFinset_cons, Finset.insert_eq_of_mem hmem]
  · intro values2 hperm
    rw [CountUnique_eq_card, CountUnique_eq_card]
    have hp : (values2.filter (fun v => decide (v ≠ ""))).Perm
        (values.filter (fun v => decide (v ≠ ""))) := List.Perm.filter _ hperm
    rw [List.toFinset_eq_of_perm _ _ hp]

theorem CountUnique_distinct_nonempty_witness :
    CountUnique ["b", "", "a", "b"] = CountUnique ["a", "b", "", "b"] :=
  (CountUnique_distinct_nonempty ["a", "b", "", "b"]).2.2.2.1 ["b", "", "a", "b"] (by decide)

/-! ## Samples -/

theorem sampleLoop_length_le (maxSamples : Int) (values samples seen : List String)
    (h : (samples.length : Int) < maxSamples) :
    ((sampleLoop maxSamples values samples seen).length : Int) ≤ maxSamples := by
  induction values generalizing samples seen with
  | nil => simpa [sampleLoop] using le_of_lt h
  | cons v vs ih =>
    unfold sampleLoop
    by_cases h1 : v = "" ∨ v ∈ seen
    · rw [if_pos h1]
      exact ih samples seen h
    · rw [if_neg h1]
      have hlen : ((samples ++ [v]).length : Int) = (samples.length : Int) + 1 := by simp
      by_cases h2 : ((samples ++ [v]).length : Int) ≥ maxSamples
      · simp only [if_pos h2]
        omega
      · simp only [if_neg h2]
        apply ih
        omega

/-- C10 (as stated, refuted): with max 0 and one non-empty value the result has
one element, and with a negative max even the empty result has more than max
elements. -/
theorem GetSampleValues_exceeds_nonpositive_max :
    ¬ (((GetSampleValues ["a"] 0).length : Int) ≤ 0) ∧
      ¬ (((GetSampleValues [] (-1)).length : Int) ≤ -1) := by
  decide

/-- C10 (amended): for every sequence of values and every max sample count that is
at least 1, `GetSampleValues` returns at most max values. -/
theorem GetSampleValues_length_le (values : List String) (maxSamples : Int)
    (h : 1 ≤ maxSamples) :
    ((GetSampleValues values maxSamples).length : Int) ≤ maxSamples := by
  unfold GetSampleValues
  apply sampleLoop_length_le
  simp only [List.length_nil, Nat.cast_zero]
  omega

theorem GetSampleValues_length_le_witness :
    (1 : Int) ≤ 3 ∧ ((GetSampleValues ["a", "b", "c", "d", "e", "f", "g"] 3).length : Int) ≤ 3 :=
  ⟨by decide, GetSampleValues_length_le ["a", "b", "c", "d", "e", "f", "g"] 3 (by decide)⟩

theorem keepFirst_filter (p : String → Bool) (l : List String) :
    keepFirst (l.filter p) = (keepFirst l).filter p := by
  induction l with
  | nil => rfl
  | cons a l ih =>
    by_cases hp : p a = true
    · rw [List.filter_cons_of_pos hp, keepFirst, keepFirst, List.filter_cons_of_pos hp, ih,
        List.filter_filter, List.filter_filter]
      congr 1
      apply List.filter_congr
      intro x _
      exact Bool.and_comm _ _
    · rw [List.filter_cons_of_neg hp, keepFirst, ih, List.filter_cons_of_neg hp,
        List.filter_filter]
      apply List.filter_congr
      intro x _
      by_cases hx : x = a
      · subst hx; simp [hp]
      · simp [hx]

theorem mem_keepFirst (l : List String) (x : String) : x ∈ keepFirst l ↔ x ∈ l := by
  induction l with
  | nil => simp [keepFirst]
  | cons a l ih =>
    by_cases hx : x = a
    · simp [keepFirst, hx]
    · simp [keepFirst, hx, ih]

theorem nodup_keepFirst (l : List String) : (keepFirst l).Nodup := by
  induction l with
  | nil => simp [keepFirst]
  | cons a l ih =>
    rw [keepFirst, List.nodup_cons]
    exact ⟨by simp, ih.filter _⟩

theorem keepFirst_sublist (l : List String) : (keepFirst l).Sublist l := by
  induction l with
  | nil => simp [keepFirst]
  | cons a l ih =>
    rw [keepFirst]
    exact ((List.filter_sublist _).trans ih).cons₂ a

theorem firstSeen_length (values : List String) :
    (firstSeen values).length = distinctCount values := by
  unfold firstSeen distinctCount
  rw [← List.toFinset_card_of_nodup (nodup_keepFirst _)]
  congr 1
  ext x
  simp [mem_keepFirst]

theorem sampleLoop_eq_take (maxSamples : Int) (values samples : List String)
    (h : (samples.length : Int) < maxSamples) :
    sampleLoop maxSamples values samples samples =
      (samples ++ keepFirst (values.filter (fun v => decide (v ≠ "" ∧ v ∉ samples)))).take
        maxSamples.toNat := by
  induction values generalizing samples with
  | nil =>
    have hlen : samples.length ≤ maxSamples.toNat := by omega
    simp [sampleLoop, keepFirst, List.take_of_length_le hlen]
  | cons v vs ih =>
    unfold sampleLoop
    by_cases h1 : v = "" ∨ v ∈ samples
    · rw [if_pos h1, ih samples h]
      have hf : (v :: vs).filter (fun v => decide (v ≠ "" ∧ v ∉ samples)) =
          vs.filter (fun v => decide (v ≠ "" ∧ v ∉ samples)) := by
        rcases h1 with h1 | h1 <;> simp [List.filter_cons, h1]
      rw [hf]
    · rw [if_neg h1]
      have hne : v ≠ "" := fun h0 => h1 (Or.inl h0)
      have hnm : v ∉ samples := fun h0 => h1 (Or.inr h0)
      have hset : setTrue samples v = samples ++ [v] := by simp [setTrue, hnm]
      have hf : (v :: vs).filter (fun v => decide (v ≠ "" ∧ v ∉ samples)) =
          v :: vs.filter (fun v => decide (v ≠ "" ∧ v ∉ samples)) := by
        simp [List.filter_cons, hne, hnm]
      have hlen : ((samples ++ [v]).length : Int) = (samples.length : Int) + 1 := by simp
      rw [hf, keepFirst]
      have happ : ∀ t : List String, samples ++ v :: t = (samples ++ [v]) ++ t := by
        intro t; simp
      rw [happ ((keepFirst (vs.filter (fun v => decide (v ≠ "" ∧ v ∉ samples)))).filter
        (fun w => decide (w ≠ v)))]
      by_cases h2 : ((samples ++ [v]).length : Int) ≥ maxSamples
      · simp only [if_pos h2]
        have hm : maxSamples.toNat = (samples ++ [v]).length := by
          simp only [List.length_append, List.length_singleton] at hlen h2 ⊢
          omega
        rw [hm, List.take_left]
      · simp only [if_neg h2]
        rw [hset, ih (samples ++ [v]) (by omega), ← keepFirst_filter, List.filter_filter]
        congr 3
        apply List.filter_congr
        intro x _
        by_cases hx : x = v
        · subst hx; simp
        · by_cases hx0 : x = ""
          · simp [hx0]
          · simp [hx, hx0]

theorem GetSampleValues_eq_firstSeen_take (values : List String) (maxSamples : Int)
    (h : 1 ≤ maxSamples) :
    GetSampleValues values maxSamples = (firstSeen values).take maxSamples.toNat := by
  unfold GetSampleValues firstSeen
  rw [sampleLoop_eq_take maxSamples values [] (by simp; omega)]
  simp

theorem take_min_length (l : List String) (m : Nat) : l.take m = l.take (min m l.length) := by
  by_cases hm : m ≤ l.length
  · rw [Nat.min_eq_left hm]
  · have hle : l.length ≤ m := Nat.le_of_lt (Nat.lt_of_not_le hm)
    rw [Nat.min_eq_right hle, List.take_of_length_le hle, List.take_length]

/-- C11: for every max that is at least 1, `GetSampleValues` returns exactly the
first `min(max, d)` elements of the list obtained from the input by dropping
empty strings and keeping only the first occurrence of each value, `d` being the
number of distinct non-empty values; so the result has no duplicates, does not
contain the empty string, is in input order, and has exactly max elements as soon
as the input has at least max distinct non-empty values.  On
`["a","b","c","d","e","f","g"]` with max 3 the result is `["a","b","c"]`. -/
theorem GetSampleValues_first_occurrences (values : List String) (maxSamples : Int)
    (h : 1 ≤ maxSamples) :
    GetSampleValues values maxSamples =
      (firstSeen values).take (min maxSamples.toNat (distinctCount values)) ∧
    (GetSampleValues values maxSamples).length = min maxSamples.toNat (distinctCount values) ∧
    (GetSampleValues values maxSamples).Nodup ∧
    "" ∉ GetSampleValues values maxSamples ∧
    (GetSampleValues values maxSamples).Sublist values ∧
    (maxSamples ≤ (distinctCount values : Int) →
      ((GetSampleValues values maxSamples).length : Int) = maxSamples) ∧
    GetSampleValues ["a", "b", "c", "d", "e", "f", "g"] 3 = ["a", "b", "c"] := by
  have heq := GetSampleValues_eq_firstSeen_take values maxSamples h
  have hlenfs := firstSeen_length values
  have hlen : (GetSampleValues values maxSamples).length =
      min maxSamples.toNat (distinctCount values) := by
    rw [heq, List.length_take, hlenfs]
  have hsub : (GetSampleValues values maxSamples).Sublist (firstSeen values) := by
    rw [heq]; exact List.take_sublist _ _
  refine ⟨?_, hlen, ?_, ?_, ?_, ?_, by decide⟩
  · rw [heq, ← hlenfs]; exact take_min_length _ _
  · exact (nodup_keepFirst _).sublist hsub
  · intro hmem
    have h1 : "" ∈ firstSeen values := hsub.subset hmem
    unfold firstSeen at h1
    rw [mem_keepFirst] at h1
    simp at h1
  · exact hsub.trans ((keepFirst_sublist _).trans (List.filter_sublist _))
  · intro hle
    rw [hlen]
    omega

theorem GetSampleValues_first_occurrences_witness :
    (1 : Int) ≤ 2 ∧ GetSampleValues ["b", "", "b", "a", "c"] 2 =
      (firstSeen ["b", "", "b", "a", "c"]).take
        (min (2 : Int).toNat (distinctCount ["b", "", "b", "a", "c"])) :=
  ⟨by decide, (GetSampleValues_first_occurrences ["b", "", "b", "a", "c"] 2 (by decide)).1⟩

/-! ## Missing values and cardinality in a column profile -/

theorem countMissing_foldl (values : List String) (acc : Nat) :
    values.foldl (fun missingCount v => if v = "" then missingCount + 1 else missingCount) acc =
      acc + values.count "" := by
  induction values generalizing acc with
  | nil => simp
  | cons v vs ih =>
    rw [List.foldl_cons, ih]
    by_cases hv : v = ""
    · simp only [hv, if_true, List.count_cons_self]
      omega
    · have hv2 : ¬ ((v == "") = true) := by simpa using hv
      simp [hv, hv2, List.count_cons]

theorem countMissing_eq (values : List String) : countMissing values = values.count "" := by
  simp [countMissing, countMissing_foldl]

theorem profileColumn_fields (lib : GoLib) (name : String) (values : List String)
    (totalRows : Int) :
    (profileColumn lib name values totalRows).MissingCount = countMissing values ∧
    (profileColumn lib name values totalRows).UniqueCount = CountUnique values ∧
    (profileColumn lib name values totalRows).MissingPct =
      (countMissing values : ℚ) / (totalRows : ℚ) * 100 := by
  unfold profileColumn
  simp only
  split_ifs <;> exact ⟨rfl, rfl, rfl⟩

theorem count_empty_add_valid (values : List String) :
    values.count "" + specValidCount values = values.length := by
  induction values with
  | nil => simp [specValidCount]
  | cons v vs ih =>
    by_cases hv : v = ""
    · simp [hv, specValidCount, List.count_cons] at ih ⊢
      omega
    · have hv2 : ¬ ((v == "") = true) := by simpa using hv
      simp [hv, hv2, specValidCount, List.count_cons] at ih ⊢
      omega

theorem CountUnique_le_valid (values : List String) :
    CountUnique values ≤ specValidCount values := by
  rw [CountUnique_eq_card, specValidCount, List.countP_eq_length_filter]
  exact List.toFinset_card_le _

/-- C12: when the value sequence is no longer than the total row count, the profile
built by `profileColumn` has 0 ≤ missing count ≤ row count and
0 ≤ unique count ≤ row count − missing count. -/
theorem profileColumn_count_bounds (lib : GoLib) (name : String) (values : List String)
    (totalRows : Int) (h : (values.length : Int) ≤ totalRows) :
    (0 : Int) ≤ ((profileColumn lib name values totalRows).MissingCount : Int) ∧
    ((profileColumn lib name values totalRows).MissingCount : Int) ≤ totalRows ∧
    (0 : Int) ≤ ((profileColumn lib name values totalRows).UniqueCount : Int) ∧
    ((profileColumn lib name values totalRows).UniqueCount : Int) ≤
      totalRows - ((profileColumn lib name values totalRows).MissingCount : Int) := by
  obtain ⟨hm, hu, _⟩ := profileColumn_fields lib name values totalRows
  rw [hm, hu, countMissing_eq]
  have h1 := count_empty_add_valid values
  have h2 := CountUnique_le_valid values
  refine ⟨?_, ?_, ?_, ?_⟩ <;> omega

theorem profileColumn_count_bounds_witness :
    ((["a", "", "b", "a"] : List String).length : Int) ≤ 6 ∧
      ((profileColumn sampleLib "c" ["a", "", "b", "a"] 6).UniqueCount : Int) ≤
        6 - ((profileColumn sampleLib "c" ["a", "", "b", "a"] 6).MissingCount : Int) :=
  ⟨by decide, (profileColumn_count_bounds sampleLib "c" ["a", "", "b", "a"] 6 (by decide)).2.2.2⟩

/-- C13: for a total row count above 0, `profileColumn` sets the missing count to
the number of empty strings in the value sequence, whatever the row count is (so
cells absent from a short sequence are not counted), and the missing percentage to
missing count / total row count * 100; when the sequence length differs from the
row count and some value is empty, that is not the percentage over the sequence
length. -/
theorem profileColumn_missing (lib : GoLib) (name : String) (values : List String)
    (totalRows : Int) (h : 0 < totalRows) :
    (profileColumn lib name values totalRows).MissingCount = values.count "" ∧
    (∀ totalRows2 : Int,
      (profileColumn lib name values totalRows2).MissingCount = values.count "") ∧
    (profileColumn lib name values totalRows).MissingPct =
      ((profileColumn lib name values totalRows).MissingCount : ℚ) / (totalRows : ℚ) * 100 ∧
    ((values.length : Int) ≠ totalRows → 0 < values.count "" →
      (profileColumn lib name values totalRows).MissingPct ≠
        ((profileColumn lib name values totalRows).MissingCount : ℚ) /
          (values.length : ℚ) * 100) := by
  obtain ⟨hm, _, hp⟩ := profileColumn_fields lib name values totalRows
  refine ⟨by rw [hm, countMissing_eq], ?_, by rw [hp, hm], ?_⟩
  · intro totalRows2
    rw [(profileColumn_fields lib name values totalRows2).1, countMissing_eq]
  · intro hlen hpos
    rw [hp, hm, countMissing_eq]
    have hc : (0 : ℚ) < (values.count "" : ℚ) := by exact_mod_cast hpos
    have ht : (0 : ℚ) < (totalRows : ℚ) := by exact_mod_cast h
    have hl0 : 0 < values.length := by
      have := count_empty_add_valid values
      omega
    have hl : (0 : ℚ) < (values.length : ℚ) := by exact_mod_cast hl0
    have hne : (values.length : ℚ) ≠ (totalRows : ℚ) := by
      intro heq
      apply hlen
      exact_mod_cast heq
    intro heq
    have h100 : (values.count "" : ℚ) / (totalRows : ℚ) =
        (values.count "" : ℚ) / (values.length : ℚ) := by
      have := mul_right_cancel₀ (by norm_num : (100 : ℚ) ≠ 0) heq
      exact this
    rw [div_eq_div_iff (ne_of_gt ht) (ne_of_gt hl)] at h100
    have := mul_left_cancel₀ (ne_of_gt hc) h100
    exact hne this

theorem profileColumn_missing_witness :
    (0 : Int) < 4 ∧ (profileColumn sampleLib "c" ["", "x"] 4).MissingCount = 1 ∧
      (profileColumn sampleLib "c" ["", "x"] 4).MissingPct = 25 := by
  have hw := profileColumn_missing sampleLib "c" ["", "x"] 4 (by decide)
  refine ⟨by decide, ?_, ?_⟩
  · rw [hw.1]; decide
  · rw [hw.2.2.1, hw.1]
    have hc : (["", "x"] : List String).count "" = 1 := by decide
    rw [hc]
    norm_num

/-! ## Invariants of the classification counters -/

theorem inferStep_sum_le (lib : GoLib) (c : TypeCounts) (v : String)
    (h : c.numericCount + c.dateCount + c.boolCount ≤ c.validCount) :
    (inferStep lib c v).numericCount + (inferStep lib c v).dateCount +
      (inferStep lib c v).boolCount ≤ (inferStep lib c v).validCount := by
  unfold inferStep
  split_ifs <;> first | exact h | (dsimp only; omega)

theorem foldl_inferStep_sum_le (lib : GoLib) (values : List String) (c : TypeCounts)
    (h : c.numericCount + c.dateCount + c.boolCount ≤ c.validCount) :
    (values.foldl (inferStep lib) c).numericCount + (values.foldl (inferStep lib) c).dateCount +
      (values.foldl (inferStep lib) c).boolCount ≤ (values.foldl (inferStep lib) c).validCount := by
  induction values generalizing c with
  | nil => exact h
  | cons v vs ih => exact ih _ (inferStep_sum_le lib c v h)

theorem specCounts_sum_le (lib : GoLib) (values : List String) :
    specNumericCount lib values + specDateCount lib values + specBoolCount lib values ≤
      specValidCount values := by
  have h := foldl_inferStep_sum_le lib values ⟨0, 0, 0, 0⟩ (Nat.le_refl _)
  have he := inferCounts_eq lib values
  unfold inferCounts at he
  rw [he] at h
  exact h

theorem inferCounts_append (lib : GoLib) (values : List String) (v : String) :
    inferCounts lib (values ++ [v]) = inferStep lib (inferCounts lib values) v := by
  simp [inferCounts, List.foldl_append]

/-- C14: the counters kept by `InferType` satisfy
numericCount + dateCount + boolCount ≤ validCount, and appending one more value to
the sequence never decreases validCount or any of the three category counts. -/
theorem inferCounts_sum_le_monotone (lib : GoLib) (values : List String) :
    (inferCounts lib values).numericCount + (inferCounts lib values).dateCount +
        (inferCounts lib values).boolCount ≤ (inferCounts lib values).validCount ∧
    ∀ v : String,
      (inferCounts lib values).validCount ≤ (inferCounts lib (values ++ [v])).validCount ∧
      (inferCounts lib values).numericCount ≤ (inferCounts lib (values ++ [v])).numericCount ∧
      (inferCounts lib values).dateCount ≤ (inferCounts lib (values ++ [v])).dateCount ∧
      (inferCounts lib values).boolCount ≤ (inferCounts lib (values ++ [v])).boolCount := by
  constructor
  · rw [inferCounts_eq]
    exact specCounts_sum_le lib values
  · intro v
    rw [inferCounts_append, inferStep_counts]
    exact ⟨Nat.le_add_right _ _, Nat.le_add_right _ _, Nat.le_add_right _ _,
      Nat.le_add_right _ _⟩

theorem firstReaching_perm (t : ℚ) {l1 l2 : List (ℚ × String)} (hp : l1.Perm l2)
    (hx : l1.Pairwise (fun a b => ¬ (a.1 ≥ t ∧ b.1 ≥ t))) :
    firstReaching t l1 = firstReaching t l2 := by
  induction hp with
  | nil => rfl
  | cons x _ ih =>
    obtain ⟨c, label⟩ := x
    simp only [firstReaching]
    rw [ih (List.pairwise_cons.mp hx).2]
  | swap x y l =>
    obtain ⟨cx, lx⟩ := x
    obtain ⟨cy, ly⟩ := y
    have hxy : ¬ (cy ≥ t ∧ cx ≥ t) :=
      (List.pairwise_cons.mp hx).1 (cx, lx) (List.mem_cons_self _ _)
    simp only [firstReaching]
    by_cases h1 : cy ≥ t
    · by_cases h2 : cx ≥ t
      · exact absurd ⟨h1, h2⟩ hxy
      · rw [if_pos h1, if_neg h2, if_pos h1]
    · rw [if_neg h1]
      by_cases h2 : cx ≥ t
      · rw [if_pos h2, if_pos h2]
      · rw [if_neg h2, if_neg h2, if_neg h1]
  | trans h1 _ ih1 ih2 =>
    have hsymm : ∀ {a b : ℚ × String}, ¬ (a.1 ≥ t ∧ b.1 ≥ t) → ¬ (b.1 ≥ t ∧ a.1 ≥ t) :=
      fun hab hba => hab ⟨hba.2, hba.1⟩
    rw [ih1 hx, ih2 ((h1.pairwise_iff hsymm).mp hx)]

theorem two_reach_absurd (v a b : Nat) (hv : 0 < v) (hab : a + b ≤ v)
    (ha : (a : ℚ) ≥ (v : ℚ) * 0.8) (hb : (b : ℚ) ≥ (v : ℚ) * 0.8) : False := by
  have hvq : (0 : ℚ) < (v : ℚ) := by exact_mod_cast hv
  have habq : (a : ℚ) + (b : ℚ) ≤ (v : ℚ) := by exact_mod_cast hab
  have ha2 : (v : ℚ) * 0.8 ≤ (a : ℚ) := ha
  have hb2 : (v : ℚ) * 0.8 ≤ (b : ℚ) := hb
  norm_num at ha2 hb2
  linarith

/-- C15: when some value is non-empty, no two of numericCount, dateCount and
boolCount reach the threshold 0.8 * validCount, and therefore making the three
threshold comparisons in any order gives the result of `InferType`. -/
theorem InferType_order_irrelevant (lib : GoLib) (values : List String)
    (h : ∃ v ∈ values, v ≠ "") :
    ¬ (((inferCounts lib values).numericCount : ℚ) ≥ ((inferCounts lib values).validCount : ℚ) * 0.8 ∧
        ((inferCounts lib values).dateCount : ℚ) ≥ ((inferCounts lib values).validCount : ℚ) * 0.8) ∧
    ¬ (((inferCounts lib values).numericCount : ℚ) ≥ ((inferCounts lib values).validCount : ℚ) * 0.8 ∧
        ((inferCounts lib values).boolCount : ℚ) ≥ ((inferCounts lib values).validCount : ℚ) * 0.8) ∧
    ¬ (((inferCounts lib values).dateCount : ℚ) ≥ ((inferCounts lib values).validCount : ℚ) * 0.8 ∧
        ((inferCounts lib values).boolCount : ℚ) ≥ ((inferCounts lib values).validCount : ℚ) * 0.8) ∧
    ∀ order : List (ℚ × String),
      order.Perm [(((inferCounts lib values).numericCount : ℚ), "numeric"),
        (((inferCounts lib values).dateCount : ℚ), "date"),
        (((inferCounts lib values).boolCount : ℚ), "boolean")] →
      firstReaching (((inferCounts lib values).validCount : ℚ) * 0.8) order =
        InferType lib values := by
  have hsum := specCounts_sum_le lib values
  have hpos : 0 < specValidCount values := (specValidCount_pos_iff values).mpr h
  have hne : values.length ≠ 0 := by
    obtain ⟨v, hv, _⟩ := h
    intro h0
    rw [List.length_eq_zero] at h0
    simp [h0] at hv
  rw [inferCounts_eq]
  simp only
  have hnd : ¬ ((specNumericCount lib values : ℚ) ≥ (specValidCount values : ℚ) * 0.8 ∧
      (specDateCount lib values : ℚ) ≥ (specValidCount values : ℚ) * 0.8) :=
    fun hh => two_reach_absurd _ _ _ hpos (by omega) hh.1 hh.2
  have hnb : ¬ ((specNumericCount lib values : ℚ) ≥ (specValidCount values : ℚ) * 0.8 ∧
      (specBoolCount lib values : ℚ) ≥ (specValidCount values : ℚ) * 0.8) :=
    fun hh => two_reach_absurd _ _ _ hpos (by omega) hh.1 hh.2
  have hdb : ¬ ((specDateCount lib values : ℚ) ≥ (specValidCount values : ℚ) * 0.8 ∧
      (specBoolCount lib values : ℚ) ≥ (specValidCount values : ℚ) * 0.8) :=
    fun hh => two_reach_absurd _ _ _ hpos (by omega) hh.1 hh.2
  refine ⟨hnd, hnb, hdb, ?_⟩
  intro order hperm
  have hpw : List.Pairwise (fun a b : ℚ × String =>
      ¬ (a.1 ≥ (specValidCount values : ℚ) * 0.8 ∧ b.1 ≥ (specValidCount values : ℚ) * 0.8))
      [((specNumericCount lib values : ℚ), "numeric"),
        ((specDateCount lib values : ℚ), "date"),
        ((specBoolCount lib values : ℚ), "boolean")] := by
    refine List.Pairwise.cons ?_ (List.Pairwise.cons ?_ (List.Pairwise.cons ?_ List.Pairwise.nil))
    · intro p hp
      simp only [List.mem_cons, List.mem_singleton, List.not_mem_nil, or_false] at hp
      rcases hp with rfl | rfl
      · exact hnd
      · exact hnb
    · intro p hp
      simp only [List.mem_singleton] at hp
      subst hp
      exact hdb
    · intro p hp
      exact absurd hp (List.not_mem_nil p)
  rw [← firstReaching_perm _ hperm.symm hpw]
  unfold InferType
  rw [if_neg hne]
  simp only [inferCounts_eq, if_neg (Nat.pos_iff_ne_zero.mp hpos), firstReaching]

theorem InferType_order_irrelevant_witness :
    (∃ v ∈ ["1", "2", "x", "3", "4"], v ≠ "") ∧
      firstReaching (((inferCounts sampleLib ["1", "2", "x", "3", "4"]).validCount : ℚ) * 0.8)
        [(((inferCounts sampleLib ["1", "2", "x", "3", "4"]).boolCount : ℚ), "boolean"),
          (((inferCounts sampleLib ["1", "2", "x", "3", "4"]).numericCount : ℚ), "numeric"),
          (((inferCounts sampleLib ["1", "2", "x", "3", "4"]).dateCount : ℚ), "date")] =
        InferType sampleLib ["1", "2", "x", "3", "4"] :=
  ⟨⟨"1", by simp, by decide⟩,
    (InferType_order_irrelevant sampleLib ["1", "2", "x", "3", "4"]
      ⟨"1", by simp, by decide⟩).2.2.2 _
      ((List.Perm.swap _ _ _).trans (List.Perm.cons _ (List.Perm.swap _ _ _)))⟩

/-! ## Missing values do not influence the inferred type -/

theorem foldl_inferStep_filter (lib : GoLib) (values : List String) (c : TypeCounts) :
    (values.filter (fun v => decide (v ≠ ""))).foldl (inferStep lib) c =
      values.foldl (inferStep lib) c := by
  induction values generalizing c with
  | nil => rfl
  | cons v vs ih =>
    by_cases hv : v = ""
    · have hstep : inferStep lib c v = c := by simp [inferStep, hv]
      have hf : (v :: vs).filter (fun v => decide (v ≠ "")) =
          vs.filter (fun v => decide (v ≠ "")) := by simp [List.filter_cons, hv]
      rw [hf, List.foldl_cons, hstep, ih]
    · have hf : (v :: vs).filter (fun v => decide (v ≠ "")) =
          v :: vs.filter (fun v => decide (v ≠ "")) := by simp [List.filter_cons, hv]
      rw [hf, List.foldl_cons, List.foldl_cons, ih]

theorem InferType_filter_nonempty (lib : GoLib) (values : List String)
    (h : ∃ v ∈ values, v ≠ "") :
    InferType lib (values.filter (fun v => decide (v ≠ ""))) = InferType lib values := by
  have hne : values.length ≠ 0 := by
    obtain ⟨v, hv, _⟩ := h
    intro h0
    rw [List.length_eq_zero] at h0
    simp [h0] at hv
  have hne2 : (values.filter (fun v => decide (v ≠ ""))).length ≠ 0 := by
    obtain ⟨v, hv, hvne⟩ := h
    intro h0
    rw [List.length_eq_zero] at h0
    have hmem : v ∈ values.filter (fun v => decide (v ≠ "")) := by
      rw [List.mem_filter]
      exact ⟨hv, by simpa using hvne⟩
    rw [h0] at hmem
    exact absurd hmem (List.not_mem_nil v)
  unfold InferType
  rw [if_neg hne, if_neg hne2]
  unfold inferCounts
  rw [foldl_inferStep_filter]

/-- C16: missing values do not influence the inferred type: when some value is
non-empty, `InferType` returns the same result on the sequence and on the sequence
with all empty strings removed; hence any two sequences that differ only by empty
strings (inserted anywhere) get the same result. -/
theorem InferType_ignores_missing (lib : GoLib) (values : List String)
    (h : ∃ v ∈ values, v ≠ "") :
    InferType lib values = InferType lib (values.filter (fun v => decide (v ≠ ""))) ∧
    ∀ values2 : List String,
      values2.filter (fun v => decide (v ≠ "")) = values.filter (fun v => decide (v ≠ "")) →
      InferType lib values2 = InferType lib values := by
  refine ⟨(InferType_filter_nonempty lib values h).symm, ?_⟩
  intro values2 heq
  have h2 : ∃ v ∈ values2, v ≠ "" := by
    obtain ⟨v, hv, hvne⟩ := h
    have hmem : v ∈ values.filter (fun v => decide (v ≠ "")) := by
      rw [List.mem_filter]
      exact ⟨hv, by simpa using hvne⟩
    rw [← heq, List.mem_filter] at hmem
    exact ⟨v, hmem.1, hvne⟩
  rw [← InferType_filter_nonempty lib values2 h2, heq, InferType_filter_nonempty lib values h]

theorem InferType_ignores_missing_witness :
    (∃ v ∈ ["1", "x", "2"], v ≠ "") ∧
      InferType sampleLib ["", "1", "", "", "x", "2", ""] = InferType sampleLib ["1", "x", "2"] :=
  ⟨⟨"1", by simp, by decide⟩,
    (InferType_ignores_missing sampleLib ["1", "x", "2"] ⟨"1", by simp, by decide⟩).2
      ["", "1", "", "", "x", "2", ""] (by decide)⟩

/-! ## Consistency of the numeric statistics -/

theorem variance_foldl (l : List ℚ) (m acc : ℚ) :
    l.foldl (fun variance n => variance + (n - m) ^ 2) acc =
      acc + (l.map (fun n => (n - m) ^ 2)).sum := by
  induction l generalizing acc with
  | nil => simp
  | cons x xs ih =>
    rw [List.foldl_cons, ih]
    simp [add_assoc]

theorem sum_sq_nonneg (l : List ℚ) (m : ℚ) : 0 ≤ (l.map (fun n => (n - m) ^ 2)).sum := by
  induction l with
  | nil => simp
  | cons x xs ih =>
    simp only [List.map_cons, List.sum_cons]
    have := sq_nonneg (x - m)
    linarith

theorem ieee_parseNums_foldl (lib : IEEE.Lib) (values : List String) (acc : List IEEE.Float64) :
    values.foldl (fun nums v =>
      if v = "" then nums
      else match lib.parseFloat v with
        | some f => nums ++ [f]
        | none => nums) acc = acc ++ IEEE.parsedValues lib values := by
  induction values generalizing acc with
  | nil => simp [IEEE.parsedValues]
  | cons v vs ih =>
    rw [List.foldl_cons, ih]
    by_cases hv : v = ""
    · simp [hv, IEEE.parsedValues]
    · cases hp : lib.parseFloat v <;> simp [hv, hp, IEEE.parsedValues]

theorem ieee_parseNums_eq (lib : IEEE.Lib) (values : List String) :
    IEEE.parseNums lib values = IEEE.parsedValues lib values := by
  simp [IEEE.parseNums, ieee_parseNums_foldl]

theorem ieee_parsedValues_ne_nil (lib : IEEE.Lib) (values : List String)
    (h : ∃ v ∈ values, v ≠ "" ∧ lib.parseFloat v ≠ none) :
    IEEE.parsedValues lib values ≠ [] := by
  obtain ⟨v, hv, hne, hp⟩ := h
  obtain ⟨f, hf⟩ := Option.ne_none_iff_exists'.mp hp
  intro hnil
  have hmem : f ∈ IEEE.parsedValues lib values := by
    unfold IEEE.parsedValues
    rw [List.mem_filterMap]
    exact ⟨v, hv, by simp [hne, hf]⟩
  rw [hnil] at hmem
  exact absurd hmem (List.not_mem_nil f)

theorem ieee_add_assoc (a b c : IEEE.Float64) : (a.add b).add c = a.add (b.add c) := by
  cases a <;> cases b <;> cases c <;> simp [IEEE.Float64.add, add_assoc]

theorem ieee_zero_add (a : IEEE.Float64) : (IEEE.Float64.fin 0).add a = a := by
  cases a <;> simp [IEEE.Float64.add]

theorem ieee_foldl_sum (nums : List IEEE.Float64) (s : IEEE.MinMaxSum) :
    (nums.foldl IEEE.minMaxSumStep s).sum = s.sum.add (IEEE.sumList nums) := by
  induction nums generalizing s with
  | nil =>
    cases hs : s.sum <;> simp [IEEE.sumList, IEEE.Float64.add, hs]
  | cons n ns ih =>
    rw [List.foldl_cons, ih]
    simp [IEEE.minMaxSumStep, IEEE.sumList, ieee_add_assoc]

theorem ieee_le_refl (a : IEEE.Float64) (h : a ≠ .nan) : a.le a :=
  Or.inr ⟨rfl, h⟩

theorem ieee_le_of_not_lt (a b : IEEE.Float64) (ha : a ≠ .nan) (hb : b ≠ .nan)
    (h : a.lt b = false) : b.le a := by
  cases a <;> cases b <;> simp_all [IEEE.Float64.lt, IEEE.Float64.le]
  rename_i p q
  rcases lt_or_eq_of_le h with h1 | h1
  · exact Or.inl h1
  · exact Or.inr h1

theorem ieee_le_trans (a b c : IEEE.Float64) (h1 : a.le b) (h2 : b.le c) : a.le c := by
  cases a <;> cases b <;> cases c <;> simp_all [IEEE.Float64.lt, IEEE.Float64.le]
  rename_i p q r
  rcases h1 with h1 | h1 <;> rcases h2 with h2 | h2
  · exact Or.inl (lt_trans h1 h2)
  · exact Or.inl (h2 ▸ h1)
  · exact Or.inl (h1 ▸ h2)
  · exact Or.inr (h1.trans h2)

theorem ieee_foldl_min (nums : List IEEE.Float64) (s : IEEE.MinMaxSum)
    (hs : s.minVal ≠ .nan) (hn : ∀ x ∈ nums, x ≠ IEEE.Float64.nan) :
    (nums.foldl IEEE.minMaxSumStep s).minVal ≠ .nan ∧
      (nums.foldl IEEE.minMaxSumStep s).minVal.le s.minVal ∧
      (∀ x ∈ nums, (nums.foldl IEEE.minMaxSumStep s).minVal.le x) ∧
      ((nums.foldl IEEE.minMaxSumStep s).minVal = s.minVal ∨
        (nums.foldl IEEE.minMaxSumStep s).minVal ∈ nums) := by
  induction nums generalizing s with
  | nil => exact ⟨hs, ieee_le_refl _ hs, by simp, Or.inl rfl⟩
  | cons n ns ih =>
    rw [List.foldl_cons]
    have hnn : n ≠ .nan := hn n (List.mem_cons_self _ _)
    have hstep : (IEEE.minMaxSumStep s n).minVal = if n.lt s.minVal then n else s.minVal := rfl
    have hne : (IEEE.minMaxSumStep s n).minVal ≠ .nan := by
      rw [hstep]; split_ifs
      · exact hnn
      · exact hs
    have hle1 : (IEEE.minMaxSumStep s n).minVal.le s.minVal := by
      rw [hstep]; split_ifs with hlt
      · exact Or.inl hlt
      · exact ieee_le_refl _ hs
    have hle2 : (IEEE.minMaxSumStep s n).minVal.le n := by
      rw [hstep]; split_ifs with hlt
      · exact ieee_le_refl _ hnn
      · exact ieee_le_of_not_lt _ _ hnn hs (by simpa using hlt)
    obtain ⟨h0, h1, h2, h3⟩ := ih (IEEE.minMaxSumStep s n) hne
      (fun x hx => hn x (List.mem_cons_of_mem _ hx))
    refine ⟨h0, ieee_le_trans _ _ _ h1 hle1, ?_, ?_⟩
    · intro x hx
      rcases List.mem_cons.mp hx with rfl | hx
      · exact ieee_le_trans _ _ _ h1 hle2
      · exact h2 x hx
    · rcases h3 with h3 | h3
      · rw [h3, hstep]
        split_ifs
        · right; exact List.mem_cons_self _ _
        · left; rfl
      · right; exact List.mem_cons_of_mem _ h3

theorem ieee_foldl_max (nums : List IEEE.Float64) (s : IEEE.MinMaxSum)
    (hs : s.maxVal ≠ .nan) (hn : ∀ x ∈ nums, x ≠ IEEE.Float64.nan) :
    (nums.foldl IEEE.minMaxSumStep s).maxVal ≠ .nan ∧
      s.maxVal.le (nums.foldl IEEE.minMaxSumStep s).maxVal ∧
      (∀ x ∈ nums, x.le (nums.foldl IEEE.minMaxSumStep s).maxVal) ∧
      ((nums.foldl IEEE.minMaxSumStep s).maxVal = s.maxVal ∨
        (nums.foldl IEEE.minMaxSumStep s).maxVal ∈ nums) := by
  induction nums generalizing s with
  | nil => exact ⟨hs, ieee_le_refl _ hs, by simp, Or.inl rfl⟩
  | cons n ns ih =>
    rw [List.foldl_cons]
    have hnn : n ≠ .nan := hn n (List.mem_cons_self _ _)
    have hstep : (IEEE.minMaxSumStep s n).maxVal = if s.maxVal.lt n then n else s.maxVal := rfl
    have hne : (IEEE.minMaxSumStep s n).maxVal ≠ .nan := by
      rw [hstep]; split_ifs
      · exact hnn
      · exact hs
    have hle1 : s.maxVal.le (IEEE.minMaxSumStep s n).maxVal := by
      rw [hstep]; split_ifs with hlt
      · exact Or.inl hlt
      · exact ieee_le_refl _ hs
    have hle2 : n.le (IEEE.minMaxSumStep s n).maxVal := by
      rw [hstep]; split_ifs with hlt
      · exact ieee_le_refl _ hnn
      · exact ieee_le_of_not_lt _ _ hs hnn (by simpa using hlt)
    obtain ⟨h0, h1, h2, h3⟩ := ih (IEEE.minMaxSumStep s n) hne
      (fun x hx => hn x (List.mem_cons_of_mem _ hx))
    refine ⟨h0, ieee_le_trans _ _ _ hle1 h1, ?_, ?_⟩
    · intro x hx
      rcases List.mem_cons.mp hx with rfl | hx
      · exact ieee_le_trans _ _ _ hle2 h1
      · exact h2 x hx
    · rcases h3 with h3 | h3
      · rw [h3, hstep]
        split_ifs
        · right; exact List.mem_cons_self _ _
        · left; rfl
      · right; exact List.mem_cons_of_mem _ h3

/-- C5 (as stated, refuted): `"NaN"` parses as NaN with a nil error, and on
`["NaN","1"]` the parsed values are NaN and 1 while the returned min and max are
both NaN, which is neither below nor above 1; on `["1","NaN"]`, the same values in
the other order, min and max are both 1. -/
theorem CalculateNumericStats_nan_first :
    (∃ v ∈ ["NaN", "1"], v ≠ "" ∧ IEEE.sampleLib.parseFloat v ≠ none) ∧
    IEEE.parsedValues IEEE.sampleLib ["NaN", "1"] = [.nan, .fin 1] ∧
    (IEEE.CalculateNumericStats IEEE.sampleLib ["NaN", "1"]).min = some .nan ∧
    (IEEE.CalculateNumericStats IEEE.sampleLib ["NaN", "1"]).max = some .nan ∧
    ¬ IEEE.Float64.le .nan (.fin 1) ∧ ¬ IEEE.Float64.le (.fin 1) .nan ∧
    (IEEE.CalculateNumericStats IEEE.sampleLib ["1", "NaN"]).min = some (.fin 1) ∧
    (IEEE.CalculateNumericStats IEEE.sampleLib ["1", "NaN"]).max = some (.fin 1) := by
  refine ⟨⟨"NaN", by simp, by decide, by decide⟩, ?_, ?_, ?_, ?_, ?_, ?_, ?_⟩
  · simp [IEEE.parsedValues, IEEE.sampleLib, decDigits]
  · simp [IEEE.CalculateNumericStats, IEEE.parseNums, IEEE.sampleLib, decDigits,
      IEEE.minMaxSumStep, IEEE.Float64.lt]
  · simp [IEEE.CalculateNumericStats, IEEE.parseNums, IEEE.sampleLib, decDigits,
      IEEE.minMaxSumStep, IEEE.Float64.lt]
  · simp [IEEE.Float64.le, IEEE.Float64.lt]
  · simp [IEEE.Float64.le, IEEE.Float64.lt]
  · simp [IEEE.CalculateNumericStats, IEEE.parseNums, IEEE.sampleLib, decDigits,
      IEEE.minMaxSumStep, IEEE.Float64.lt]
  · simp [IEEE.CalculateNumericStats, IEEE.parseNums, IEEE.sampleLib, decDigits,
      IEEE.minMaxSumStep, IEEE.Float64.lt]

/-- C5 (amended): when some non-empty value parses as a number,
`CalculateNumericStats` returns as mean the sum of the parsed values divided by
their count and, provided no parsed value is NaN, as min the least and as max the
greatest of the parsed values (empty and unparsable values discarded, infinities
included); for `["1","2","3","4","5"]`, parsed as 1, ..., 5, this gives min 1,
max 5, mean 3. -/
theorem CalculateNumericStats_min_max_mean_no_nan (lib : IEEE.Lib) (values : List String)
    (h : ∃ v ∈ values, v ≠ "" ∧ lib.parseFloat v ≠ none) :
    (IEEE.CalculateNumericStats lib values).mean =
      some ((IEEE.sumList (IEEE.parsedValues lib values)).div
        (.fin ((IEEE.parsedValues lib values).length : ℚ))) ∧
    (IEEE.Float64.nan ∉ IEEE.parsedValues lib values →
      ∃ mn mx : IEEE.Float64,
        (IEEE.CalculateNumericStats lib values).min = some mn ∧
        (IEEE.CalculateNumericStats lib values).max = some mx ∧
        mn ∈ IEEE.parsedValues lib values ∧
        (∀ x ∈ IEEE.parsedValues lib values, mn.le x) ∧
        mx ∈ IEEE.parsedValues lib values ∧
        (∀ x ∈ IEEE.parsedValues lib values, x.le mx)) ∧
    (lib.parseFloat "1" = some (.fin 1) → lib.parseFloat "2" = some (.fin 2) →
      lib.parseFloat "3" = some (.fin 3) → lib.parseFloat "4" = some (.fin 4) →
      lib.parseFloat "5" = some (.fin 5) →
      (IEEE.CalculateNumericStats lib ["1", "2", "3", "4", "5"]).min = some (.fin 1) ∧
      (IEEE.CalculateNumericStats lib ["1", "2", "3", "4", "5"]).max = some (.fin 5) ∧
      (IEEE.CalculateNumericStats lib ["1", "2", "3", "4", "5"]).mean = some (.fin 3)) := by
  have hne := ieee_parsedValues_ne_nil lib values h
  obtain ⟨n0, rest, hcons⟩ := List.exists_cons_of_ne_nil hne
  have hp : IEEE.parseNums lib values = n0 :: rest := by rw [ieee_parseNums_eq, hcons]
  refine ⟨?_, ?_, ?_⟩
  · have hsum := ieee_foldl_sum (n0 :: rest) ⟨n0, n0, .fin 0⟩
    simp only [IEEE.CalculateNumericStats, hp, hcons, hsum, ieee_zero_add]
  · intro hnan
    rw [hcons] at hnan
    have hn : ∀ x ∈ n0 :: rest, x ≠ IEEE.Float64.nan := fun x hx hxn => hnan (hxn ▸ hx)
    have h0 : n0 ≠ .nan := hn n0 (List.mem_cons_self _ _)
    obtain ⟨_, _, hmin2, hmin3⟩ := ieee_foldl_min (n0 :: rest) ⟨n0, n0, .fin 0⟩ h0 hn
    obtain ⟨_, _, hmax2, hmax3⟩ := ieee_foldl_max (n0 :: rest) ⟨n0, n0, .fin 0⟩ h0 hn
    refine ⟨((n0 :: rest).foldl IEEE.minMaxSumStep ⟨n0, n0, .fin 0⟩).minVal,
      ((n0 :: rest).foldl IEEE.minMaxSumStep ⟨n0, n0, .fin 0⟩).maxVal, ?_, ?_, ?_, ?_, ?_, ?_⟩
    · simp only [IEEE.CalculateNumericStats, hp]
    · simp only [IEEE.CalculateNumericStats, hp]
    · rw [hcons]
      rcases hmin3 with h3 | h3
      · rw [h3]; exact List.mem_cons_self _ _
      · exact h3
    · rw [hcons]; exact hmin2
    · rw [hcons]
      rcases hmax3 with h3 | h3
      · rw [h3]; exact List.mem_cons_self _ _
      · exact h3
    · rw [hcons]; exact hmax2
  · intro h1 h2 h3 h4 h5
    simp [IEEE.CalculateNumericStats, IEEE.parseNums, h1, h2, h3, h4, h5, IEEE.minMaxSumStep,
      IEEE.Float64.lt, IEEE.Float64.add, IEEE.Float64.div]
    norm_num

theorem CalculateNumericStats_min_max_mean_no_nan_witness :
    (∃ v ∈ ["7", "", "x", "-Inf", "3"], v ≠ "" ∧ IEEE.sampleLib.parseFloat v ≠ none) ∧
      IEEE.Float64.nan ∉ IEEE.parsedValues IEEE.sampleLib ["7", "", "x", "-Inf", "3"] ∧
      ∃ mn mx : IEEE.Float64,
        (IEEE.CalculateNumericStats IEEE.sampleLib ["7", "", "x", "-Inf", "3"]).min = some mn ∧
        (IEEE.CalculateNumericStats IEEE.sampleLib ["7", "", "x", "-Inf", "3"]).max = some mx ∧
        mn ∈ IEEE.parsedValues IEEE.sampleLib ["7", "", "x", "-Inf", "3"] ∧
        (∀ x ∈ IEEE.parsedValues IEEE.sampleLib ["7", "", "x", "-Inf", "3"], mn.le x) ∧
        mx ∈ IEEE.parsedValues IEEE.sampleLib ["7", "", "x", "-Inf", "3"] ∧
        (∀ x ∈ IEEE.parsedValues IEEE.sampleLib ["7", "", "x", "-Inf", "3"], x.le mx) :=
  ⟨⟨"7", by simp, by decide, by decide⟩,
    by simp [IEEE.parsedValues, IEEE.sampleLib, decDigits],
    (CalculateNumericStats_min_max_mean_no_nan IEEE.sampleLib ["7", "", "x", "-Inf", "3"]
      ⟨"7", by simp, by decide, by decide⟩).2.1
      (by simp [IEEE.parsedValues, IEEE.sampleLib, decDigits])⟩

theorem ieee_div_one (x : IEEE.Float64) : x.div (.fin 1) = x := by
  cases x <;> simp [IEEE.Float64.div]

theorem ieee_single_stats (lib : IEEE.Lib) (values : List String) (x : IEEE.Float64)
    (h : IEEE.parsedValues lib values = [x]) :
    IEEE.CalculateNumericStats lib values =
      ⟨some x, some x, some x, some x,
        some (lib.sqrt64 ((((IEEE.Float64.fin 0).add ((x.sub x).sq))).div (.fin 1)))⟩ := by
  have hp : IEEE.parseNums lib values = [x] := by rw [ieee_parseNums_eq, h]
  have hlt : x.lt x = false := by cases x <;> simp [IEEE.Float64.lt]
  simp [IEEE.CalculateNumericStats, hp, IEEE.minMaxSumStep, hlt, ieee_zero_add, ieee_div_one,
    IEEE.sortFloat64s, IEEE.medianOfSorted]

/-- C7 (as stated, refuted): `"Inf"` parses as `+Inf` with a nil error, so `["Inf"]`
has exactly one parsable value, and the returned standard deviation is NaN, not 0
(the deviation from the mean is `Inf - Inf`); on `["NaN"]` it is NaN as well. -/
theorem CalculateNumericStats_single_special :
    IEEE.parsedValues IEEE.sampleLib ["Inf"] = [.posInf] ∧
    (IEEE.CalculateNumericStats IEEE.sampleLib ["Inf"]).stddev = some .nan ∧
    (IEEE.CalculateNumericStats IEEE.sampleLib ["Inf"]).stddev ≠ some (.fin 0) ∧
    IEEE.parsedValues IEEE.sampleLib ["NaN"] = [.nan] ∧
    (IEEE.CalculateNumericStats IEEE.sampleLib ["NaN"]).stddev = some .nan := by
  have p1 : IEEE.parsedValues IEEE.sampleLib ["Inf"] = [.posInf] := by
    simp [IEEE.parsedValues, IEEE.sampleLib, decDigits]
  have p2 : IEEE.parsedValues IEEE.sampleLib ["NaN"] = [.nan] := by
    simp [IEEE.parsedValues, IEEE.sampleLib, decDigits]
  have h1 : (IEEE.CalculateNumericStats IEEE.sampleLib ["Inf"]).stddev = some .nan := by
    rw [ieee_single_stats _ _ _ p1]
    simp [IEEE.Float64.sub, IEEE.Float64.sq, IEEE.Float64.add, IEEE.Float64.div,
      IEEE.Lib.sqrt64]
  refine ⟨p1, h1, ?_, p2, ?_⟩
  · rw [h1]; simp
  · rw [ieee_single_stats _ _ _ p2]
    simp [IEEE.Float64.sub, IEEE.Float64.sq, IEEE.Float64.add, IEEE.Float64.div,
      IEEE.Lib.sqrt64]

/-- C7 (amended): when exactly one value parses (all others being empty or
unparsable) and its parsed value is `x`, `CalculateNumericStats` returns `x` as
min, max, median and mean; the standard deviation is 0 when `x` is finite (the
square root of 0 being 0) and NaN when `x` is NaN or infinite. -/
theorem CalculateNumericStats_single_value (lib : IEEE.Lib) (values : List String)
    (x : IEEE.Float64) (hsqrt : lib.sqrt 0 = 0) (h : IEEE.parsedValues lib values = [x]) :
    (IEEE.CalculateNumericStats lib values).min = some x ∧
    (IEEE.CalculateNumericStats lib values).max = some x ∧
    (IEEE.CalculateNumericStats lib values).median = some x ∧
    (IEEE.CalculateNumericStats lib values).mean = some x ∧
    (∀ q : ℚ, x = .fin q → (IEEE.CalculateNumericStats lib values).stddev = some (.fin 0)) ∧
    (x = .nan ∨ x = .posInf ∨ x = .negInf →
      (IEEE.CalculateNumericStats lib values).stddev = some .nan) := by
  rw [ieee_single_stats lib values x h]
  refine ⟨rfl, rfl, rfl, rfl, ?_, ?_⟩
  · intro q hq
    subst hq
    simp [IEEE.Float64.sub, IEEE.Float64.sq, IEEE.Float64.add, IEEE.Float64.div,
      IEEE.Lib.sqrt64, hsqrt]
  · rintro (hx | hx | hx) <;> subst hx <;>
      simp [IEEE.Float64.sub, IEEE.Float64.sq, IEEE.Float64.add, IEEE.Float64.div,
        IEEE.Lib.sqrt64]

theorem CalculateNumericStats_single_value_witness :
    IEEE.sampleLib.sqrt 0 = 0 ∧
      IEEE.parsedValues IEEE.sampleLib ["", "abc", "42", ""] = [.fin 42] ∧
      (IEEE.CalculateNumericStats IEEE.sampleLib ["", "abc", "42", ""]).mean = some (.fin 42) ∧
      (IEEE.CalculateNumericStats IEEE.sampleLib ["", "abc", "42", ""]).stddev = some (.fin 0) :=
  ⟨by simp [IEEE.sampleLib], by simp [IEEE.parsedValues, IEEE.sampleLib, decDigits],
    (CalculateNumericStats_single_value IEEE.sampleLib ["", "abc", "42", ""] (.fin 42)
      (by simp [IEEE.sampleLib]) (by simp [IEEE.parsedValues, IEEE.sampleLib, decDigits])).2.2.2.1,
    (CalculateNumericStats_single_value IEEE.sampleLib ["", "abc", "42", ""] (.fin 42)
      (by simp [IEEE.sampleLib])
      (by simp [IEEE.parsedValues, IEEE.sampleLib, decDigits])).2.2.2.2.1 42 rfl⟩

/-! ## The exact model is the IEEE model on finite values -/

theorem ieee_parsedValues_ofExact (lib : GoLib) (values : List String) :
    IEEE.parsedValues (IEEE.ofExact lib) values =
      (parsedValues lib values).map IEEE.Float64.fin := by
  have key : List.filterMap
        (fun v => if v = "" then none else (lib.parseFloat v).map IEEE.Float64.fin) values =
      (List.filterMap (fun v => if v = "" then none else lib.parseFloat v) values).map
        IEEE.Float64.fin := by
    induction values with
    | nil => rfl
    | cons v vs ih =>
      by_cases hv : v = ""
      · simp [hv, List.filterMap_cons, ih]
      · cases hp : lib.parseFloat v <;> simp [hv, hp, List.filterMap_cons, ih]
  exact key

theorem ieee_minMaxSum_fin (l : List ℚ) (s : MinMaxSum) :
    (l.map IEEE.Float64.fin).foldl IEEE.minMaxSumStep ⟨.fin s.minVal, .fin s.maxVal, .fin s.sum⟩ =
      ⟨.fin (l.foldl minMaxSumStep s).minVal, .fin (l.foldl minMaxSumStep s).maxVal,
        .fin (l.foldl minMaxSumStep s).sum⟩ := by
  induction l generalizing s with
  | nil => rfl
  | cons n ns ih =>
    rw [List.map_cons, List.foldl_cons, List.foldl_cons, ← ih (minMaxSumStep s n)]
    congr 1
    simp only [IEEE.minMaxSumStep, minMaxSumStep, IEEE.Float64.lt, IEEE.Float64.add,
      decide_eq_true_eq]
    congr 1 <;> split_ifs <;> rfl

theorem ieee_sort_fin (l : List ℚ) :
    IEEE.sortFloat64s (l.map IEEE.Float64.fin) = (sortFloat64s l).map IEEE.Float64.fin := by
  have hins : ∀ (a : ℚ) (t : List ℚ),
      List.orderedInsert (fun x y : IEEE.Float64 => IEEE.sortLess y x = false)
          (IEEE.Float64.fin a) (t.map IEEE.Float64.fin) =
        (List.orderedInsert (fun x y : ℚ => x ≤ y) a t).map IEEE.Float64.fin := by
    intro a t
    induction t with
    | nil => rfl
    | cons b bs ih =>
      simp only [List.map_cons, List.orderedInsert]
      by_cases hab : a ≤ b
      · have h1 : IEEE.sortLess (IEEE.Float64.fin b) (IEEE.Float64.fin a) = false := by
          simp [IEEE.sortLess, IEEE.Float64.lt, IEEE.Float64.isNaN, hab]
        rw [if_pos h1, if_pos hab]
        rfl
      · have h1 : ¬ (IEEE.sortLess (IEEE.Float64.fin b) (IEEE.Float64.fin a) = false) := by
          simp [IEEE.sortLess, IEEE.Float64.lt, IEEE.Float64.isNaN]
          exact not_le.mp hab
        rw [if_neg h1, if_neg hab, ih]
        rfl
  unfold IEEE.sortFloat64s sortFloat64s
  induction l with
  | nil => rfl
  | cons a t ih =>
    simp only [List.map_cons, List.insertionSort]
    rw [ih, hins]

theorem ieee_getD_fin (l : List ℚ) (i : Nat) :
    (l.map IEEE.Float64.fin).getD i (.fin 0) = .fin (l.getD i 0) := by
  induction l generalizing i with
  | nil => rfl
  | cons a t ih =>
    cases i with
    | zero => rfl
    | succ j => simp [ih j]

theorem ieee_median_fin (l : List ℚ) :
    IEEE.medianOfSorted (l.map IEEE.Float64.fin) = .fin (medianOfSorted l) := by
  unfold IEEE.medianOfSorted medianOfSorted
  simp only [List.length_map, ieee_getD_fin]
  split_ifs
  · have h2 : ¬ ((2 : ℚ) = 0) := by norm_num
    simp [IEEE.Float64.add, IEEE.Float64.div, h2]
  · rfl

theorem ieee_variance_fin (l : List ℚ) (m acc : ℚ) :
    (l.map IEEE.Float64.fin).foldl
        (fun (variance n : IEEE.Float64) => variance.add ((n.sub (.fin m)).sq)) (.fin acc) =
      .fin (l.foldl (fun variance n => variance + (n - m) ^ 2) acc) := by
  induction l generalizing acc with
  | nil => rfl
  | cons n ns ih =>
    rw [List.map_cons, List.foldl_cons, List.foldl_cons, ← ih]
    rfl

/-- On a library that returns finite values only, `CalculateNumericStats` over IEEE
values returns exactly the results of the exact model. -/
theorem ieee_exact_agree (lib : GoLib) (values : List String) :
    IEEE.CalculateNumericStats (IEEE.ofExact lib) values =
      IEEE.ofExactStats (CalculateNumericStats lib values) := by
  have hp : IEEE.parseNums (IEEE.ofExact lib) values =
      (parseNums lib values).map IEEE.Float64.fin := by
    rw [ieee_parseNums_eq, ieee_parsedValues_ofExact, parseNums_eq]
  cases hq : parseNums lib values with
  | nil =>
    rw [hq] at hp
    simp [IEEE.CalculateNumericStats, CalculateNumericStats, hp, hq, IEEE.ofExactStats]
  | cons n0 rest =>
    rw [hq] at hp
    have hlen : ¬ (((n0 :: rest).length : ℚ) = 0) := by
      have : (0 : ℚ) < ((n0 :: rest).length : ℚ) := by
        exact_mod_cast Nat.succ_pos rest.length
      exact ne_of_gt this
    have hfold := ieee_minMaxSum_fin (n0 :: rest) ⟨n0, n0, 0⟩
    have hsort := ieee_sort_fin (n0 :: rest)
    have hV : ¬ ((n0 :: rest).foldl (fun variance n => variance +
        (n - ((n0 :: rest).foldl minMaxSumStep ⟨n0, n0, 0⟩).sum /
          ((n0 :: rest).length : ℚ)) ^ 2) 0 / ((n0 :: rest).length : ℚ) < 0) := by
      rw [variance_foldl, zero_add, not_lt]
      exact div_nonneg (sum_sq_nonneg _ _) (Nat.cast_nonneg _)
    simp only [List.map_cons] at hp hfold hsort
    simp only [IEEE.CalculateNumericStats, CalculateNumericStats, hp, hq, IEEE.ofExactStats,
      Option.map_some']
    rw [hfold, hsort]
    have hmed := ieee_median_fin (sortFloat64s (n0 :: rest))
    have hvar := ieee_variance_fin (n0 :: rest)
      (((n0 :: rest).foldl minMaxSumStep ⟨n0, n0, 0⟩).sum / ((n0 :: rest).length : ℚ)) 0
    simp only [List.map_cons] at hvar
    simp only [List.length_cons, List.length_map] at hlen hV hvar ⊢
    simp only [IEEE.Float64.div, if_neg hlen, hmed, hvar, IEEE.Lib.sqrt64, if_neg hV,
      IEEE.ofExact]

end Gocheck
